import Mathlib

/-!
# Parallel k-nearest-neighbour digit classifier

A shallow embedding of `knn.c` and `classifier.c`:

* `load_dataset`   : the binary dataset reader,
* `knn_predict`    : candidate scan, label tally and vote,
* `child_handler`  : the loop a worker runs over its range of test images,
* `main_ranges`    : the `(start_idx, N)` pairs the coordinator sends,
* `select_metric`  : the choice of the distance function from the `-d` string,
* `main`           : the coordinator from metric selection to the result line.

C `int`s are `Int`, `unsigned char`s are `Fin 256`, arrays are lists, and a
`double` is a `Dbl`: a rational (every finite double is one), an infinity or
NaN, compared the way IEEE comparison does.  What the program does not
determine is a parameter: `garbage` and `u` stand for what uninitialised storage
holds (each call of `knn_predict` has its own), `granted` for which calls of
`malloc` return memory.  Undefined behaviour (an access outside an array, an
array of negative size) makes the result `none`; an array of size zero holds
nothing, as in the compiled program.
-/

namespace OCR

/-! ## Data model (`knn.h`) -/

/-- A C `double`: a finite value, plus or minus infinity, or NaN. -/
inductive Dbl where
  | fin (q : ℚ)
  | pinf
  | ninf
  | nan
  deriving DecidableEq

/-- The C comparison `a < b` on doubles (`a > b` is `Dbl.lt b a`); every
comparison with NaN is false. -/
def Dbl.lt : Dbl → Dbl → Bool
  | .fin a, .fin b => decide (a < b)
  | .fin _, .pinf => true
  | .ninf, .fin _ => true
  | .ninf, .pinf => true
  | _, _ => false

/-- An `unsigned char`. -/
abbrev Byte := Fin 256

/-- The struct `Image`. -/
structure Image where
  sx : Int
  sy : Int
  data : List Byte
  deriving DecidableEq

/-- The struct `Dataset`. -/
structure Dataset where
  num_items : Int
  images : List Image
  labels : List Byte
  deriving DecidableEq

/-- The struct `Knn_item`. -/
structure Knn_item where
  dist : Dbl
  img_idx : Int
  deriving DecidableEq

/-- The macro `WIDTH`. -/
def WIDTH : Nat := 28

/-- The macro `NUM_PIXELS`, which expands to `WIDTH * WIDTH`. -/
def NUM_PIXELS : Nat := WIDTH * WIDTH

/-! ## `load_dataset` -/

/-- The `int` stored in four bytes, least significant byte first, two's
complement. -/
def decode_int (b0 b1 b2 b3 : Byte) : Int :=
  let v : Int := (b0.val : Int) + 256 * (b1.val : Int) + 65536 * (b2.val : Int)
    + 16777216 * (b3.val : Int)
  if v < 2147483648 then v else v - 4294967296

/-- The largest `size_t`, the value the `int` constant `-1` converts to when it
is compared with the result of `fread`. -/
def SIZE_MAX : Nat := 18446744073709551615

/-- How a function that does not return ends: `exit(status)`, or a crash on an
access through a null pointer, which an unchecked `malloc` returned. -/
inductive Fatal where
  | exit (status : Int)
  | crash
  deriving DecidableEq

/-- The loop of `load_dataset` over the items, `i` being the loop variable and
the first argument the iterations left: for each item a label byte and then
`NUM_PIXELS` pixel bytes are read from the stream; a short read ends the program
with status 1.  `labels_ok` and `images_ok` say whether `data->labels` and
`data->images` are memory, `granted (3 + i)` whether the pixel buffer of item
`i` is; the results of `malloc` are used unchecked, so a byte that is read or
a field that is written through a null pointer is a crash (at the end of the
stream `fread` stores nothing). -/
def read_items (granted : Nat → Bool) (labels_ok images_ok : Bool) :
    Nat → Nat → List Byte → List Image → List Byte → Except Fatal (List Image × List Byte)
  | 0, _, _, images, labels => .ok (images, labels)
  | n + 1, i, stream, images, labels =>
    match stream with
    | [] => .error (Fatal.exit 1)
    | label :: rest =>
      if labels_ok = false then .error Fatal.crash
      else if images_ok = false then .error Fatal.crash
      else if granted (3 + i) = false then
        (match rest with
          | [] => .error (Fatal.exit 1)
          | _ :: _ => .error Fatal.crash)
      else if (rest.take NUM_PIXELS).length ≠ NUM_PIXELS then .error (Fatal.exit 1)
      else
        read_items granted labels_ok images_ok n (i + 1) (rest.drop NUM_PIXELS)
          (images ++ [⟨(WIDTH : Int), (WIDTH : Int), rest.take NUM_PIXELS⟩])
          (labels ++ [label])

/-- The two allocations for `num_items` labels and images (calls 1 and 2 of
`malloc`), the item loop, and the return of the Dataset after it (`fclose` of
the file, which was opened for reading, succeeds). -/
def load_items (granted : Nat → Bool) (num_items : Int) (stream : List Byte) :
    Except Fatal Dataset :=
  match read_items granted (granted 1) (granted 2) num_items.toNat 0 stream [] [] with
  | .error e => .error e
  | .ok (images, labels) => .ok ⟨num_items, images, labels⟩

/-- The function `load_dataset` on the content of a file that exists.
`granted k` says whether call `k` of `malloc` returns memory (call 0 is the one
for the Dataset itself).  `u` is what the freshly allocated, uninitialised
`num_items` field holds when `fread` could not fill it. -/
def load_dataset (granted : Nat → Bool) (u : Int) (bytes : List Byte) : Except Fatal Dataset :=
  if granted 0 = false then .error Fatal.crash
  else
    let fread_ret : Nat := if 4 ≤ bytes.length then 1 else 0
    if fread_ret = SIZE_MAX then .error (Fatal.exit 1)
    else
      let num_items : Int :=
        match bytes with
        | b0 :: b1 :: b2 :: b3 :: _ => decode_int b0 b1 b2 b3
        | _ => u
      load_items granted num_items (bytes.drop 4)

/-! ## `knn_predict` -/

/-- The array `smallest` after the initialisation loop: every `dist` is
`INFINITY`, and `img_idx` is left as it was (`garbage j` for slot `j`). -/
def init_smallest (garbage : Nat → Int) (K : Nat) : List Knn_item :=
  (List.range K).map (fun j => ⟨Dbl.pinf, garbage j⟩)

/-- The inner loop that looks for the maximum distance: the slots still to
visit, the index `j` of the first of them, and `(max_dist, max_index)`. -/
def find_max : List Knn_item → Nat → Dbl × Nat → Dbl × Nat
  | [], _, st => st
  | it :: rest, j, st =>
    if Dbl.lt st.1 it.dist then find_max rest (j + 1) (it.dist, j)
    else find_max rest (j + 1) st

/-- One iteration of the scan loop for training item `i` at distance `dist`.
A write to `smallest[max_index]` outside the array gives `none`. -/
def scan_step (smallest : List Knn_item) (i : Nat) (dist : Dbl) : Option (List Knn_item) :=
  let m := find_max smallest 0 (Dbl.fin (-1), 0)
  if Dbl.lt dist m.1 then
    if m.2 < smallest.length then some (smallest.set m.2 ⟨dist, (i : Int)⟩) else none
  else some smallest

/-- The array `smallest` after the first `i` iterations of the scan loop.  An
array `smallest[K]` of negative size is undefined behaviour; for `K = 0` the
array has no slot. -/
def knn_scan (garbage : Nat → Int) (data : Dataset) (input : Image) (K : Int)
    (fptr : Image → Image → Dbl) : Nat → Option (List Knn_item)
  | 0 => if K < 0 then none else some (init_smallest garbage K.toNat)
  | i + 1 =>
    match knn_scan garbage data input K fptr i, data.images[i]? with
    | some smallest, some img => scan_step smallest i (fptr img input)
    | _, _ => none

/-- The loop that counts the labels of the slots into `counts`.  A slot index
outside `labels`, or a label outside `counts[10]`, gives `none`. -/
def tally_loop (data : Dataset) : List Knn_item → (Nat → Nat) → Option (Nat → Nat)
  | [], counts => some counts
  | it :: rest, counts =>
    if 0 ≤ it.img_idx then
      match data.labels[it.img_idx.toNat]? with
      | some l =>
        if l.val < 10 then
          tally_loop data rest (fun x => if x = l.val then counts x + 1 else counts x)
        else none
      | none => none
    else none

/-- The loop that finds the most frequent label; the state is
`(max_count, max_label)`, which starts as `(0, 1)`. -/
def most_frequent (counts : Nat → Nat) : Nat :=
  ((List.range 10).foldl
    (fun (st : Nat × Nat) i => if counts i > st.1 then (counts i, i) else st) (0, 1)).2

/-- The function `knn_predict`. -/
def knn_predict (garbage : Nat → Int) (data : Dataset) (input : Image) (K : Int)
    (fptr : Image → Image → Dbl) : Option Nat :=
  match knn_scan garbage data input K fptr data.num_items.toNat with
  | none => none
  | some smallest =>
    match tally_loop data smallest (fun _ => 0) with
    | none => none
    | some counts => some (most_frequent counts)

/-! ## `child_handler` -/

/-- The prediction loop of `child_handler`, `stop` being `start_idx + N`: the
iterations left, the loop variable `i` and `num_correct`.  The call of
`knn_predict` for test image `i` finds `garbage i` in its uninitialised
storage. -/
def child_loop (garbage : Nat → Nat → Int) (training testing : Dataset) (K : Int)
    (fptr : Image → Image → Dbl) (stop : Int) : Nat → Int → Nat → Option Nat
  | 0, _, num_correct => some num_correct
  | fuel + 1, i, num_correct =>
    if i < stop ∧ i < testing.num_items then
      if 0 ≤ i then
        match testing.images[i.toNat]?, testing.labels[i.toNat]? with
        | some curr_image, some curr_image_label =>
          match knn_predict (garbage i.toNat) training curr_image K fptr with
          | some predict =>
            child_loop garbage training testing K fptr stop fuel (i + 1)
              (if curr_image_label.val = predict then num_correct + 1 else num_correct)
          | none => none
        | _, _ => none
      else none
    else some num_correct

/-- The number `child_handler` writes to its parent after it has read
`start_idx` and `N`.  The loop runs at most `N` times. -/
def child_handler (garbage : Nat → Nat → Int) (training testing : Dataset) (K : Int)
    (fptr : Image → Image → Dbl) (start_idx N : Int) : Option Nat :=
  child_loop garbage training testing K fptr (start_idx + N) N.toNat start_idx 0

/-! ## The coordinator (`main`) -/

/-- The choice of `N` for worker `i`.  The `double` quotient is the exact
rational quotient here: for 32-bit `int`s the rounding of the division never
moves the quotient onto or across an integer, so `ceil` and `floor` of the
rounded quotient are those of the exact one.  The C operator `%` truncates. -/
def chooseN (test_set_size num_procs i : Int) : Int :=
  if i < Int.tmod test_set_size num_procs then
    Int.ceil ((test_set_size : ℚ) / (num_procs : ℚ))
  else
    Int.floor ((test_set_size : ℚ) / (num_procs : ℚ))

/-- The dispatch loop after `i` iterations: the `(start_idx, N)` pairs sent so
far, in order, and the current `start_idx`. -/
def dispatch (test_set_size num_procs : Int) : Nat → List (Int × Int) × Int
  | 0 => ([], 0)
  | i + 1 =>
    let st := dispatch test_set_size num_procs i
    let N := chooseN test_set_size num_procs (i : Int)
    (st.1 ++ [(st.2, N)], st.2 + N)

/-- The `(start_idx, N)` pairs sent to workers `0 .. num_procs - 1`. -/
def main_ranges (test_set_size num_procs : Int) : List (Int × Int) :=
  (dispatch test_set_size num_procs num_procs.toNat).1

/-- The loop that adds the numbers read from the workers to `total_correct`. -/
def collect : List (Option Nat) → Nat → Option Nat
  | [], total_correct => some total_correct
  | some num_correct :: rest, total_correct => collect rest (total_correct + num_correct)
  | none :: _, _ => none

/-- The terminator of a C string. -/
def NUL : Char := Char.ofNat 0

/-- The library function `strlen` on a string stored as its characters, the
terminator following them. -/
def strlen : List Char → Nat
  | [] => 0
  | c :: rest => if c = NUL then 0 else strlen rest + 1

/-- The library function `strncmp`. -/
def strncmp : List Char → List Char → Nat → Int
  | _, _, 0 => 0
  | s1, s2, n + 1 =>
    let c1 := s1.headD NUL
    let c2 := s2.headD NUL
    if c1 ≠ c2 then (c1.toNat : Int) - (c2.toNat : Int)
    else if c1 = NUL then 0
    else strncmp s1.tail s2.tail n

/-- The two distance functions. -/
inductive Metric where
  | euclidean
  | cosine
  deriving DecidableEq

/-- The choice of the distance function; `.error 1` is `exit(1)`. -/
def select_metric (dist_metric : List Char) : Except Int Metric :=
  if strncmp dist_metric "euclidean".toList (strlen dist_metric) = 0 then .ok Metric.euclidean
  else if strncmp dist_metric "cosine".toList (strlen dist_metric) = 0 then .ok Metric.cosine
  else .error 1

/-- What a run of the coordinator does: its exit status, how many workers it
forked, and the result line it printed, if any (the only print outside the
`verbose` checks). -/
structure Outcome where
  exit_status : Int
  spawned : Nat
  result_line : Option Int
  deriving DecidableEq

/-- The function `main` from the choice of the metric on, for the options as
`getopt` left them and without the prints under `verbose`.  A file is `none`
when it cannot be opened.  `granted 0` and `granted 1` are the `malloc` results
of the two loads, `u 0` and `u 1` their uninitialised counts, and `garbage i`
is the uninitialised storage of the `knn_predict` call for test image `i`.  The
result is `none` when the run has undefined behaviour (a load or a worker
crashes, `csend_array` has negative size). -/
def main (garbage : Nat → Nat → Int) (granted : Nat → Nat → Bool) (u : Nat → Int)
    (distance_euclidean distance_cosine : Image → Image → Dbl)
    (K : Int) (dist_metric : List Char) (num_procs : Int)
    (training_file testing_file : Option (List Byte)) : Option Outcome :=
  match select_metric dist_metric with
  | .error s => some ⟨s, 0, none⟩
  | .ok m =>
    let fptr := match m with
      | Metric.euclidean => distance_euclidean
      | Metric.cosine => distance_cosine
    match training_file.map (load_dataset (granted 0) (u 0)) with
    | none => some ⟨1, 0, none⟩
    | some (.error (Fatal.exit s)) => some ⟨s, 0, none⟩
    | some (.error Fatal.crash) => none
    | some (.ok training) =>
      match testing_file.map (load_dataset (granted 1) (u 1)) with
      | none => some ⟨1, 0, none⟩
      | some (.error (Fatal.exit s)) => some ⟨s, 0, none⟩
      | some (.error Fatal.crash) => none
      | some (.ok testing) =>
        if num_procs < 0 then none
        else
          let ranges := main_ranges testing.num_items num_procs
          match collect (ranges.map
              (fun r => child_handler garbage training testing K fptr r.1 r.2)) 0 with
          | none => none
          | some total_correct => some ⟨0, ranges.length, some (total_correct : Int)⟩

/-! ## Sample inputs -/

/-- An image of one pixel. -/
def pixel_image (p : Byte) : Image := ⟨1, 1, [p]⟩

/-- The summation loop of `distance_euclidean` over two pixel lists, `d` being
the sum so far. -/
def sq_sum : List Byte → List Byte → Int → Int
  | x :: xs, y :: ys, d =>
    sq_sum xs ys (d + ((x.val : Int) - (y.val : Int)) * ((x.val : Int) - (y.val : Int)))
  | _, _, d => d

/-- A distance function that is evaluated exactly: the sum of the squared pixel
differences, which is the square of the Euclidean distance. -/
def sq_distance (a b : Image) : Dbl := Dbl.fin ((sq_sum a.data b.data 0 : Int) : ℚ)

/-- The content of a dataset file with no item. -/
def empty_file : List Byte := [0, 0, 0, 0]

/-- The image stored in record `i` of the records that follow the count: the
`NUM_PIXELS` bytes after the label byte of the record. -/
def record_image (records : List Byte) (i : Nat) : Image :=
  ⟨28, 28, (records.drop (785 * i + 1)).take 784⟩

/-- The content of a dataset file with one item: the label and a black image. -/
def one_item_file (label : Byte) : List Byte :=
  [1, 0, 0, 0] ++ [label] ++ List.replicate 784 0

/-! ## Notions used in the statements -/

/-- A distance as the slots hold them during a scan of finite distances: a
finite value or `INFINITY`. -/
def Dbl.finite_or_inf : Dbl → Prop
  | .fin _ => True
  | .pinf => True
  | _ => False

/-- Two slots that hold the same distance and, unless that distance is still
`INFINITY`, the same index. -/
def same_slot (a b : Knn_item) : Prop :=
  a.dist = b.dist ∧ (a.dist ≠ Dbl.pinf → a.img_idx = b.img_idx)

/-- The number of candidate slots whose training item has label `l`. -/
def slot_tally (data : Dataset) (smallest : List Knn_item) (l : Nat) : Nat :=
  smallest.countP (fun it =>
    decide (0 ≤ it.img_idx) && ((data.labels[it.img_idx.toNat]?).map Fin.val == some l))

/-- The value of the metric for training item `j` and the query, NaN when there
is no such item. -/
def dist_of (data : Dataset) (input : Image) (fptr : Image → Image → Dbl) (j : Nat) : Dbl :=
  match data.images[j]? with
  | some img => fptr img input
  | none => Dbl.nan

/-- A training set of three one-pixel images with pixels 0, 2 and 1 and labels
7, 3 and 3. -/
def sample_training : Dataset :=
  ⟨3, [pixel_image 0, pixel_image 2, pixel_image 1], [7, 3, 3]⟩

/-- A training set of two one-pixel images with labels 7 and 3. -/
def tie_training : Dataset := ⟨2, [pixel_image 0, pixel_image 2], [7, 3]⟩

/-- A testing set of the two images of `tie_training`, both with label 7. -/
def tie_testing : Dataset := ⟨2, [pixel_image 0, pixel_image 2], [7, 7]⟩

/-- The Dataset that holds the given `(label, image)` items in the given order. -/
def dataset_of (items : List (Byte × Image)) : Dataset :=
  ⟨(items.length : Int), items.map Prod.snd, items.map Prod.fst⟩

/-- The number of items that are strictly closer to the query than item `x`. -/
def closer (fptr : Image → Image → Dbl) (input : Image) (items : List (Byte × Image))
    (x : Byte × Image) : Nat :=
  items.countP (fun y => Dbl.lt (fptr y.2 input) (fptr x.2 input))

/-- The number of items that are not farther from the query than item `x`
(item `x` is one of them). -/
def not_farther (fptr : Image → Image → Dbl) (input : Image) (items : List (Byte × Image))
    (x : Byte × Image) : Nat :=
  items.countP (fun y => !Dbl.lt (fptr x.2 input) (fptr y.2 input))

/-- Training item `j` of a list of items (an item with label 0 and the given
image when there is none). -/
def item_at (items : List (Byte × Image)) (input : Image) (j : Nat) : Byte × Image :=
  items.getD j (0, input)

/-- The votes for label `l` among the `K` nearest items, without reference to
the order of the items: the items with label `l` that have at most `K` items
not farther than they are, plus the slots left over when an item with label
`l` is among those tied at the distance where the `K` nearest end. -/
def nearest_tally (fptr : Image → Image → Dbl) (input : Image) (items : List (Byte × Image))
    (K : Nat) (l : Nat) : Nat :=
  items.countP (fun x => (x.1.val == l) && decide (not_farther fptr input items x ≤ K)) +
    (if items.any (fun x => decide (closer fptr input items x < K) &&
        decide (K < not_farther fptr input items x) && (x.1.val == l))
      then K - items.countP (fun x => decide (not_farther fptr input items x ≤ K)) else 0)

/-- The tally loop on the list of the labels that the slots refer to. -/
def tally_list : List Nat → (Nat → Nat) → Option (Nat → Nat)
  | [], counts => some counts
  | l :: rest, counts =>
    if l < 10 then tally_list rest (fun x => if x = l then counts x + 1 else counts x)
    else none

/-- Two items at the same distance 1 from the query pixel 2, with labels 7 and 3. -/
def tied_items : List (Byte × Image) := [(7, pixel_image 1), (3, pixel_image 3)]

/-- Three items at the squared distances 1, 1 and 49 from the query pixel 2,
with labels 7, 3 and 3: for `K = 2` the two tied items are both among the
nearest. -/
def near_tie_items : List (Byte × Image) :=
  [(7, pixel_image 1), (3, pixel_image 3), (3, pixel_image 9)]

/-- Whether test image `i` is classified correctly: `knn_predict` on it returns
its label. -/
def correct_at (garbage : Nat → Nat → Int) (training testing : Dataset) (K : Int)
    (fptr : Image → Image → Dbl) (i : Nat) : Bool :=
  match testing.images[i]?, testing.labels[i]? with
  | some img, some l => decide (knn_predict (garbage i) training img K fptr = some l.val)
  | _, _ => false

/-! ## The partition -/

theorem floor_quot (T P : Int) (hP : 1 ≤ P) :
    Int.floor ((T : ℚ) / (P : ℚ)) = T / P := by
  obtain ⟨p, rfl⟩ := Int.eq_ofNat_of_zero_le (by omega : 0 ≤ P)
  exact_mod_cast Rat.floor_intCast_div_natCast T p

theorem ceil_quot (T P : Int) (hP : 1 ≤ P) (hr : 0 < T % P) :
    Int.ceil ((T : ℚ) / (P : ℚ)) = T / P + 1 := by
  have hPq : (0 : ℚ) < (P : ℚ) := by exact_mod_cast (by omega : 0 < P)
  have hlt : T % P < P := Int.emod_lt_of_pos T (by omega)
  have hdecomp : (T : ℚ) = (P : ℚ) * ((T / P : Int) : ℚ) + ((T % P : Int) : ℚ) := by
    exact_mod_cast (Int.ediv_add_emod T P).symm
  rw [Int.ceil_eq_iff]
  have hr2 : (0 : ℚ) < ((T % P : Int) : ℚ) := by exact_mod_cast hr
  have hlt2 : ((T % P : Int) : ℚ) < (P : ℚ) := by exact_mod_cast hlt
  constructor
  · rw [lt_div_iff₀ hPq]; push_cast; nlinarith
  · rw [div_le_iff₀ hPq]; push_cast; nlinarith

theorem chooseN_eq (T P : Int) (i : Nat) (hT : 0 ≤ T) (hP : 1 ≤ P) :
    chooseN T P (i : Int) = T / P + (if (i : Int) < T % P then 1 else 0) := by
  unfold chooseN
  rw [Int.tmod_eq_emod hT (by omega)]
  split
  · rename_i h
    rw [ceil_quot T P hP (by omega)]
  · rw [floor_quot T P hP]; simp

theorem chooseN_nonneg (T P : Int) (i : Nat) (hT : 0 ≤ T) (hP : 1 ≤ P) :
    0 ≤ chooseN T P (i : Int) := by
  rw [chooseN_eq T P i hT hP]
  have : 0 ≤ T / P := Int.ediv_nonneg hT (by omega)
  split <;> omega

theorem dispatch_length (T P : Int) (i : Nat) : (dispatch T P i).1.length = i := by
  induction i with
  | zero => rfl
  | succ i ih => simp [dispatch, ih]

theorem dispatch_getElem (T P : Int) (i j : Nat) (h : j < i) :
    (dispatch T P i).1[j]? = some ((dispatch T P j).2, chooseN T P (j : Int)) := by
  induction i with
  | zero => omega
  | succ i ih =>
    simp only [dispatch]
    by_cases hj : j < i
    · rw [List.getElem?_append_left (by rw [dispatch_length]; exact hj)]
      exact ih hj
    · have : j = i := by omega
      subst this
      rw [List.getElem?_append_right (by rw [dispatch_length])]
      simp [dispatch_length]

theorem dispatch_start_succ (T P : Int) (i : Nat) :
    (dispatch T P (i + 1)).2 = (dispatch T P i).2 + chooseN T P (i : Int) := rfl

theorem dispatch_start_mono (T P : Int) (hT : 0 ≤ T) (hP : 1 ≤ P) (i j : Nat) (h : i ≤ j) :
    (dispatch T P i).2 ≤ (dispatch T P j).2 := by
  induction j with
  | zero =>
    have : i = 0 := by omega
    subst this; exact le_refl _
  | succ j ih =>
    by_cases hij : i = j + 1
    · subst hij; exact le_refl _
    · have h1 := ih (by omega)
      have h2 := chooseN_nonneg T P j hT hP
      rw [dispatch_start_succ]; omega

theorem dispatch_start_eq (T P : Int) (hT : 0 ≤ T) (hP : 1 ≤ P) (i : Nat) :
    (dispatch T P i).2 = (i : Int) * (T / P) + min (i : Int) (T % P) := by
  induction i with
  | zero =>
    have : 0 ≤ T % P := Int.emod_nonneg T (by omega)
    simp [dispatch, this]
  | succ i ih =>
    rw [dispatch_start_succ, ih, chooseN_eq T P i hT hP]
    push_cast
    rw [add_mul]
    generalize (i : Int) * (T / P) = a
    split <;> omega

theorem dispatch_start_total (T P : Int) (hT : 0 ≤ T) (hP : 1 ≤ P) :
    (dispatch T P P.toNat).2 = T := by
  rw [dispatch_start_eq T P hT hP]
  have h1 : ((P.toNat : Nat) : Int) = P := Int.toNat_of_nonneg (by omega)
  have h2 : T % P < P := Int.emod_lt_of_pos T (by omega)
  have h3 := Int.ediv_add_emod T P
  rw [h1, min_eq_right (le_of_lt h2)]
  exact h3

theorem dispatch_sum (T P : Int) (i : Nat) :
    ((dispatch T P i).1.map Prod.snd).sum = (dispatch T P i).2 := by
  induction i with
  | zero => rfl
  | succ i ih => simp [dispatch, ih]

theorem dispatch_cover (T P : Int) (x : Int) (hx : 0 ≤ x) (n : Nat)
    (h : x < (dispatch T P n).2) :
    ∃ i, i < n ∧ (dispatch T P i).2 ≤ x ∧ x < (dispatch T P i).2 + chooseN T P (i : Int) := by
  induction n with
  | zero => simp [dispatch] at h; omega
  | succ n ih =>
    by_cases hn : x < (dispatch T P n).2
    · obtain ⟨i, hi, h1, h2⟩ := ih hn
      exact ⟨i, by omega, h1, h2⟩
    · refine ⟨n, by omega, by omega, ?_⟩
      rw [dispatch_start_succ] at h; exact h

theorem main_ranges_getElem (T P : Int) (i : Nat) (h : i < P.toNat) :
    (main_ranges T P)[i]? = some ((dispatch T P i).2, chooseN T P (i : Int)) :=
  dispatch_getElem T P P.toNat i h

theorem main_ranges_length (T P : Int) : (main_ranges T P).length = P.toNat :=
  dispatch_length T P P.toNat

theorem main_ranges_mem (T P : Int) (r : Int × Int) (h : r ∈ main_ranges T P) :
    ∃ i, i < P.toNat ∧ r = ((dispatch T P i).2, chooseN T P (i : Int)) := by
  obtain ⟨i, hi, hr⟩ := List.getElem_of_mem h
  rw [main_ranges_length] at hi
  have h2 := main_ranges_getElem T P i hi
  rw [List.getElem?_eq_getElem (by rw [main_ranges_length]; exact hi)] at h2
  refine ⟨i, hi, ?_⟩
  rw [← hr]
  exact Option.some.inj h2

theorem main_ranges_one (T : Int) (hT : 0 ≤ T) : main_ranges T 1 = [(0, T)] := by
  have h1 : main_ranges T 1
      = [((dispatch T 1 0).2, chooseN T 1 ((0 : Nat) : Int))] := by
    apply List.ext_getElem?
    intro n
    by_cases hn : n = 0
    · subst hn
      rw [main_ranges_getElem _ 1 0 (by decide)]
      rfl
    · have h2 : (main_ranges T 1).length ≤ n := by
        rw [main_ranges_length]
        have : (1 : Int).toNat = 1 := rfl
        omega
      rw [List.getElem?_eq_none h2, List.getElem?_eq_none (by simp; omega)]
  rw [h1, chooseN_eq _ 1 0 hT (by decide)]
  simp [dispatch]

theorem main_ranges_nonpos (T P : Int) (hP : P ≤ 0) : main_ranges T P = [] := by
  have h0 : P.toNat = 0 := by omega
  simp [main_ranges, h0, dispatch]

/-- C3 (partition coverage): for a test set of `T ≥ 0` items and `P ≥ 1` workers
the coordinator sends exactly `P` pairs `(start_idx, N)`; the first starts at 0,
each next one starts where the previous one ends, every `N` is non-negative, an
earlier range ends before a later one starts, the lengths add up to `T`, and
an index lies in `[0, T)` exactly when it lies in one of the ranges. -/
theorem partition_coverage (T P : Int) (hT : 0 ≤ T) (hP : 1 ≤ P) :
    (main_ranges T P).length = P.toNat ∧
    ((main_ranges T P)[0]?).map Prod.fst = some 0 ∧
    (∀ i : Nat, i + 1 < P.toNat →
      ((main_ranges T P)[i + 1]?).map Prod.fst
        = ((main_ranges T P)[i]?).map (fun r => r.1 + r.2)) ∧
    (∀ r ∈ main_ranges T P, 0 ≤ r.2) ∧
    (∀ (i j : Nat) (r r2 : Int × Int), i < j → (main_ranges T P)[i]? = some r →
      (main_ranges T P)[j]? = some r2 → r.1 + r.2 ≤ r2.1) ∧
    ((main_ranges T P).map Prod.snd).sum = T ∧
    (∀ x : Int, (0 ≤ x ∧ x < T) ↔ ∃ r ∈ main_ranges T P, r.1 ≤ x ∧ x < r.1 + r.2) := by
  have hlen := main_ranges_length T P
  refine ⟨hlen, ?_, ?_, ?_, ?_, ?_, ?_⟩
  · rw [main_ranges_getElem T P 0 (by omega)]; rfl
  · intro i hi
    rw [main_ranges_getElem T P (i + 1) hi, main_ranges_getElem T P i (by omega)]
    rfl
  · intro r hr
    obtain ⟨i, _, rfl⟩ := main_ranges_mem T P r hr
    exact chooseN_nonneg T P i hT hP
  · intro i j r r2 hij hi hj
    have hjP : j < P.toNat := by
      rw [← hlen]
      exact (List.getElem?_eq_some.mp hj).1
    rw [main_ranges_getElem T P i (by omega)] at hi
    rw [main_ranges_getElem T P j hjP] at hj
    cases hi; cases hj
    have := dispatch_start_mono T P hT hP (i + 1) j (by omega)
    rw [dispatch_start_succ] at this
    exact this
  · unfold main_ranges
    rw [dispatch_sum, dispatch_start_total T P hT hP]
  · intro x
    constructor
    · rintro ⟨hx0, hxT⟩
      rw [← dispatch_start_total T P hT hP] at hxT
      obtain ⟨i, hi, h1, h2⟩ := dispatch_cover T P x hx0 P.toNat hxT
      refine ⟨((dispatch T P i).2, chooseN T P (i : Int)), ?_, h1, h2⟩
      exact List.getElem?_mem (main_ranges_getElem T P i hi)
    · rintro ⟨r, hr, h1, h2⟩
      obtain ⟨i, hi, rfl⟩ := main_ranges_mem T P r hr
      have h0 : (dispatch T P 0).2 ≤ (dispatch T P i).2 :=
        dispatch_start_mono T P hT hP 0 i (by omega)
      have h3 := dispatch_start_mono T P hT hP (i + 1) P.toNat (by omega)
      rw [dispatch_start_succ, dispatch_start_total T P hT hP] at h3
      have h4 : (dispatch T P 0).2 = 0 := rfl
      simp only at h1 h2
      omega

/-- Witness of C3: seven test images and three workers. -/
theorem partition_coverage_witness :
    (main_ranges 7 3).length = (3 : Int).toNat ∧
    ((main_ranges 7 3)[0]?).map Prod.fst = some 0 ∧
    (∀ i : Nat, i + 1 < (3 : Int).toNat →
      ((main_ranges 7 3)[i + 1]?).map Prod.fst
        = ((main_ranges 7 3)[i]?).map (fun r => r.1 + r.2)) ∧
    (∀ r ∈ main_ranges 7 3, 0 ≤ r.2) ∧
    (∀ (i j : Nat) (r r2 : Int × Int), i < j → (main_ranges 7 3)[i]? = some r →
      (main_ranges 7 3)[j]? = some r2 → r.1 + r.2 ≤ r2.1) ∧
    ((main_ranges 7 3).map Prod.snd).sum = 7 ∧
    (∀ x : Int, (0 ≤ x ∧ x < 7) ↔ ∃ r ∈ main_ranges 7 3, r.1 ≤ x ∧ x < r.1 + r.2) :=
  partition_coverage 7 3 (by decide) (by decide)

/-- C5 (partition fairness): for `T ≥ 0` and `P ≥ 1`, with `r = T mod P`, each
of the workers `0 .. r-1` is sent `ceil(T/P)` items, which is `T / P + 1`, each of
the workers `r .. P-1` is sent `floor(T/P)` items, which is `T / P`; so two
lengths differ by at most one, and a range is longer than another exactly when
it is among the first `r` and the other is not. -/
theorem partition_fairness (T P : Int) (hT : 0 ≤ T) (hP : 1 ≤ P) :
    (∀ i : Nat, (i : Int) < T % P →
      ((main_ranges T P)[i]?).map Prod.snd = some (Int.ceil ((T : ℚ) / (P : ℚ))) ∧
      Int.ceil ((T : ℚ) / (P : ℚ)) = T / P + 1) ∧
    (∀ i : Nat, T % P ≤ (i : Int) → (i : Int) < P →
      ((main_ranges T P)[i]?).map Prod.snd = some (Int.floor ((T : ℚ) / (P : ℚ))) ∧
      Int.floor ((T : ℚ) / (P : ℚ)) = T / P) ∧
    (∀ r ∈ main_ranges T P, ∀ r2 ∈ main_ranges T P, r.2 ≤ r2.2 + 1) ∧
    (∀ (i j : Nat) (r r2 : Int × Int), (main_ranges T P)[i]? = some r →
      (main_ranges T P)[j]? = some r2 →
      (r2.2 < r.2 ↔ ((i : Int) < T % P ∧ T % P ≤ (j : Int)))) := by
  have hlen := main_ranges_length T P
  have hmod : T % P < P := Int.emod_lt_of_pos T (by omega)
  have hmod0 : 0 ≤ T % P := Int.emod_nonneg T (by omega)
  refine ⟨?_, ?_, ?_, ?_⟩
  · intro i hi
    have hc := ceil_quot T P hP (by omega)
    refine ⟨?_, hc⟩
    rw [main_ranges_getElem T P i (by omega), hc, chooseN_eq T P i hT hP]
    simp [hi]
  · intro i hi hiP
    have hf := floor_quot T P hP
    refine ⟨?_, hf⟩
    rw [main_ranges_getElem T P i (by omega), hf, chooseN_eq T P i hT hP]
    simp [not_lt.mpr hi]
  · intro r hr r2 hr2
    obtain ⟨i, _, rfl⟩ := main_ranges_mem T P r hr
    obtain ⟨j, _, rfl⟩ := main_ranges_mem T P r2 hr2
    simp only
    rw [chooseN_eq T P i hT hP, chooseN_eq T P j hT hP]
    split <;> split <;> omega
  · intro i j r r2 hi hj
    have hiP : i < P.toNat := by
      rw [← hlen]; exact (List.getElem?_eq_some.mp hi).1
    have hjP : j < P.toNat := by
      rw [← hlen]; exact (List.getElem?_eq_some.mp hj).1
    rw [main_ranges_getElem T P i hiP] at hi
    rw [main_ranges_getElem T P j hjP] at hj
    cases hi; cases hj
    simp only
    rw [chooseN_eq T P i hT hP, chooseN_eq T P j hT hP]
    split <;> split <;> omega

/-- Witness of C5: seven test images and three workers. -/
theorem partition_fairness_witness :
    (∀ i : Nat, (i : Int) < 7 % 3 →
      ((main_ranges 7 3)[i]?).map Prod.snd = some (Int.ceil (((7 : Int) : ℚ) / ((3 : Int) : ℚ))) ∧
      Int.ceil (((7 : Int) : ℚ) / ((3 : Int) : ℚ)) = 7 / 3 + 1) ∧
    (∀ i : Nat, 7 % 3 ≤ (i : Int) → (i : Int) < 3 →
      ((main_ranges 7 3)[i]?).map Prod.snd = some (Int.floor (((7 : Int) : ℚ) / ((3 : Int) : ℚ))) ∧
      Int.floor (((7 : Int) : ℚ) / ((3 : Int) : ℚ)) = 7 / 3) ∧
    (∀ r ∈ main_ranges 7 3, ∀ r2 ∈ main_ranges 7 3, r.2 ≤ r2.2 + 1) ∧
    (∀ (i j : Nat) (r r2 : Int × Int), (main_ranges 7 3)[i]? = some r →
      (main_ranges 7 3)[j]? = some r2 →
      (r2.2 < r.2 ↔ ((i : Int) < 7 % 3 ∧ 7 % 3 ≤ (j : Int)))) :=
  partition_fairness 7 3 (by decide) (by decide)

/-! ## The workers' counts and their sum -/

theorem child_loop_stop (garbage : Nat → Nat → Int) (training testing : Dataset) (K : Int)
    (fptr : Image → Image → Dbl) (fuel : Nat) :
    ∀ (i : Int) (c : Nat) (stop stop2 : Int), i + fuel ≤ stop → i + fuel ≤ stop2 →
      child_loop garbage training testing K fptr stop fuel i c
        = child_loop garbage training testing K fptr stop2 fuel i c := by
  induction fuel with
  | zero => intro i c stop stop2 _ _; rfl
  | succ n ih =>
    intro i c stop stop2 h1 h2
    push_cast at h1 h2
    have e1 : i < stop := by omega
    have e2 : i < stop2 := by omega
    simp only [child_loop, e1, e2, true_and]
    split
    · split
      · split
        · split
          · exact ih _ _ _ _ (by omega) (by omega)
          · rfl
        · rfl
      · rfl
    · rfl

theorem child_loop_done (garbage : Nat → Nat → Int) (training testing : Dataset) (K : Int)
    (fptr : Image → Image → Dbl) (stop : Int) (fuel : Nat) (i : Int) (c : Nat)
    (h : testing.num_items ≤ i) :
    child_loop garbage training testing K fptr stop fuel i c = some c := by
  cases fuel with
  | zero => rfl
  | succ n =>
    have : ¬ (i < stop ∧ i < testing.num_items) := by omega
    simp only [child_loop, this, if_false]

theorem child_loop_append (garbage : Nat → Nat → Int) (training testing : Dataset) (K : Int)
    (fptr : Image → Image → Dbl) (n m : Nat) :
    ∀ (i : Int) (c : Nat) (stop stop1 stop2 : Int),
      i + n + m ≤ stop → i + n ≤ stop1 → i + n + m ≤ stop2 →
      child_loop garbage training testing K fptr stop (n + m) i c
        = (child_loop garbage training testing K fptr stop1 n i c).bind
            (fun x => child_loop garbage training testing K fptr stop2 m (i + n) x) := by
  induction n with
  | zero =>
    intro i c stop stop1 stop2 h _ h2
    simp only [Nat.zero_add, child_loop, Option.some_bind, Nat.cast_zero, add_zero] at *
    exact child_loop_stop garbage training testing K fptr m i c stop stop2 h h2
  | succ n ih =>
    intro i c stop stop1 stop2 h h1 h2
    push_cast at h h1 h2
    have e : n + 1 + m = (n + m) + 1 := by omega
    have e1 : i < stop := by omega
    have e2 : i < stop1 := by omega
    rw [e]
    simp only [child_loop, e1, e2, true_and]
    by_cases hT : i < testing.num_items
    · simp only [hT, if_true]
      have e3 : i + ((n + 1 : Nat) : Int) = i + 1 + (n : Int) := by push_cast; omega
      split
      · split
        · split
          · rw [e3]
            exact ih _ _ _ _ _ (by omega) (by omega) (by omega)
          · rfl
        · rfl
      · rfl
    · simp only [hT, if_false, Option.some_bind]
      exact (child_loop_done garbage training testing K fptr stop2 m _ c (by push_cast; omega)).symm

theorem child_loop_acc (garbage : Nat → Nat → Int) (training testing : Dataset) (K : Int)
    (fptr : Image → Image → Dbl) (stop : Int) (fuel : Nat) :
    ∀ (i : Int) (c : Nat),
      child_loop garbage training testing K fptr stop fuel i c
        = (child_loop garbage training testing K fptr stop fuel i 0).map (fun n => c + n) := by
  induction fuel with
  | zero => intro i c; simp [child_loop]
  | succ n ih =>
    intro i c
    simp only [child_loop]
    split
    · split
      · split
        · split
          · conv_lhs => rw [ih]
            conv_rhs => rw [ih]
            rw [Option.map_map]
            congr 1
            funext x
            simp only [Function.comp]
            split <;> omega
          · rfl
        · rfl
      · rfl
    · simp

theorem child_handler_add (garbage : Nat → Nat → Int) (training testing : Dataset) (K : Int)
    (fptr : Image → Image → Dbl) (a n m : Int) (hn : 0 ≤ n) (hm : 0 ≤ m) :
    child_handler garbage training testing K fptr a (n + m)
      = (child_handler garbage training testing K fptr a n).bind
          (fun x => (child_handler garbage training testing K fptr (a + n) m).map
            (fun y => x + y)) := by
  unfold child_handler
  have e : (n + m).toNat = n.toNat + m.toNat := by omega
  have en : ((n.toNat : Nat) : Int) = n := Int.toNat_of_nonneg hn
  have em : ((m.toNat : Nat) : Int) = m := Int.toNat_of_nonneg hm
  rw [e, child_loop_append garbage training testing K fptr n.toNat m.toNat a 0 (a + (n + m))
    (a + n) (a + n + m) (by omega) (by omega) (by omega), en]
  congr 1
  funext x
  exact child_loop_acc garbage training testing K fptr (a + n + m) m.toNat (a + n) x

theorem collect_append (l l2 : List (Option Nat)) :
    ∀ t : Nat, collect (l ++ l2) t = (collect l t).bind (fun t2 => collect l2 t2) := by
  induction l with
  | nil => intro t; simp [collect]
  | cons x rest ih =>
    intro t
    cases x with
    | none => simp [collect]
    | some v => simp only [List.cons_append, collect]; exact ih _

theorem collect_single (x : Option Nat) (t : Nat) :
    collect [x] t = x.map (fun y => t + y) := by
  cases x <;> simp [collect]

theorem collect_dispatch (garbage : Nat → Nat → Int) (training testing : Dataset) (K : Int)
    (fptr : Image → Image → Dbl) (T P : Int) (hT : 0 ≤ T) (hP : 1 ≤ P) (i : Nat) :
    collect ((dispatch T P i).1.map
        (fun r => child_handler garbage training testing K fptr r.1 r.2)) 0
      = child_handler garbage training testing K fptr 0 (dispatch T P i).2 := by
  induction i with
  | zero => simp [dispatch, collect, child_handler, child_loop]
  | succ i ih =>
    have h0 : 0 ≤ (dispatch T P i).2 := dispatch_start_mono T P hT hP 0 i (by omega)
    have hc := chooseN_nonneg T P i hT hP
    rw [dispatch_start_succ, child_handler_add garbage training testing K fptr 0 _ _ h0 hc]
    simp only [dispatch, List.map_append, List.map_cons, List.map_nil]
    rw [collect_append, ih]
    congr 1
    funext x
    rw [collect_single, zero_add]

/-- The partition and the summation are right: when the `knn_predict` call for
each test image finds the same uninitialised storage in both runs, the
coordinator's sum of the counts of the `P` ranges equals the count of the single
range `(0, T)`, which is the only range of a one-worker run. -/
theorem collect_ranges (garbage : Nat → Nat → Int) (training testing : Dataset) (K : Int)
    (fptr : Image → Image → Dbl) (P : Int) (hT : 0 ≤ testing.num_items) (hP : 1 ≤ P) :
    main_ranges testing.num_items 1 = [(0, testing.num_items)] ∧
    collect ((main_ranges testing.num_items P).map
        (fun r => child_handler garbage training testing K fptr r.1 r.2)) 0
      = child_handler garbage training testing K fptr 0 testing.num_items := by
  refine ⟨main_ranges_one _ hT, ?_⟩
  unfold main_ranges
  rw [collect_dispatch garbage training testing K fptr _ P hT hP,
    dispatch_start_total _ P hT hP]

theorem filter_range_succ_length (P : Nat → Bool) (n : Nat) :
    ((List.range (n + 1)).filter P).length
      = (if P 0 = true then 1 else 0) + ((List.range n).filter (P ∘ Nat.succ)).length := by
  rw [List.range_succ_eq_map, List.filter_cons]
  split
  · rw [List.length_cons, List.filter_map, List.length_map]; omega
  · rw [List.filter_map, List.length_map]; omega

theorem child_loop_count (garbage : Nat → Nat → Int) (training testing : Dataset) (K : Int)
    (fptr : Image → Image → Dbl) (stop : Int) (fuel : Nat) :
    ∀ (a c : Nat), (a : Int) + fuel ≤ stop →
      (∀ i, a ≤ i → i < a + fuel → (i : Int) < testing.num_items →
        ∃ img l p, testing.images[i]? = some img ∧ testing.labels[i]? = some l ∧
          knn_predict (garbage i) training img K fptr = some p) →
      child_loop garbage training testing K fptr stop fuel (a : Int) c
        = some (c + ((List.range fuel).filter (fun k =>
            decide (((a + k : Nat) : Int) < testing.num_items) &&
              correct_at garbage training testing K fptr (a + k))).length) := by
  induction fuel with
  | zero => intro a c _ _; simp [child_loop]
  | succ n ih =>
    intro a c hstop hdef
    push_cast at hstop
    have e1 : (a : Int) < stop := by omega
    have e0 : (0 : Int) ≤ (a : Int) := by omega
    rw [filter_range_succ_length]
    have hshift : (fun k => decide (((a + k : Nat) : Int) < testing.num_items) &&
          correct_at garbage training testing K fptr (a + k)) ∘ Nat.succ
        = (fun k => decide (((a + 1 + k : Nat) : Int) < testing.num_items) &&
          correct_at garbage training testing K fptr (a + 1 + k)) := by
      funext k
      have : a + Nat.succ k = a + 1 + k := by omega
      simp only [Function.comp, this]
    rw [hshift]
    by_cases hT : (a : Int) < testing.num_items
    · obtain ⟨img, l, p, himg, hl, hp⟩ := hdef a (by omega) (by omega) hT
      have hnext := ih (a + 1) (if l.val = p then c + 1 else c) (by push_cast; omega)
        (fun i h1 h2 h3 => hdef i (by omega) (by omega) h3)
      have hc : correct_at garbage training testing K fptr a = decide (l.val = p) := by
        simp only [correct_at, himg, hl, hp, Option.some.injEq]
        by_cases h : l.val = p
        · simp [h]
        · have : ¬ p = l.val := fun e => h e.symm
          simp [h, this]
      simp only [child_loop, e1, hT, and_self, if_true, e0, Int.toNat_ofNat, himg, hl, hp]
      have e2 : ((a + 1 : Nat) : Int) = (a : Int) + 1 := by push_cast; rfl
      rw [e2] at hnext
      rw [hnext]
      simp only [Nat.add_zero, hT, decide_True, Bool.true_and, hc]
      by_cases h : l.val = p
      · simp only [h, if_true, decide_True]
        congr 1; omega
      · simp only [h, if_false, decide_False]
        congr 1; simp
    · have hnone : ∀ x ∈ List.range n, ¬ ((fun k =>
          decide (((a + 1 + k : Nat) : Int) < testing.num_items) &&
            correct_at garbage training testing K fptr (a + 1 + k)) x = true) := by
        intro x _
        have : ¬ (((a + 1 + x : Nat) : Int) < testing.num_items) := by push_cast; omega
        simp only [this, decide_False, Bool.false_and, Bool.false_eq_true, not_false_eq_true]
      simp only [child_loop, e1, hT, and_false, if_false, Nat.add_zero, decide_False,
        Bool.false_and, List.filter_eq_nil_iff.mpr hnone]
      simp

/-- The number `child_handler` reports for the range `(start_idx, N)` is the
number of the indices `i` with `start_idx ≤ i < start_idx + N` and
`i < num_items` of the testing set whose image is classified correctly, when
every classification in the range returns a label. -/
theorem child_handler_count (garbage : Nat → Nat → Int) (training testing : Dataset) (K : Int)
    (fptr : Image → Image → Dbl) (start_idx N : Nat)
    (hdef : ∀ i, start_idx ≤ i → i < start_idx + N → (i : Int) < testing.num_items →
      ∃ img l p, testing.images[i]? = some img ∧ testing.labels[i]? = some l ∧
        knn_predict (garbage i) training img K fptr = some p) :
    child_handler garbage training testing K fptr (start_idx : Int) (N : Int)
      = some (((List.range N).filter (fun k =>
          decide (((start_idx + k : Nat) : Int) < testing.num_items) &&
            correct_at garbage training testing K fptr (start_idx + k))).length) := by
  unfold child_handler
  rw [Int.toNat_ofNat, child_loop_count garbage training testing K fptr _ N start_idx 0
    (le_refl _) hdef, Nat.zero_add]

theorem main_ranges_two : main_ranges 2 2 = [(0, 1), (1, 1)] := by
  have h0 : chooseN 2 2 ((0 : Nat) : Int) = 1 := by
    rw [chooseN_eq 2 2 0 (by decide) (by decide)]; decide
  have h1 : chooseN 2 2 ((1 : Nat) : Int) = 1 := by
    rw [chooseN_eq 2 2 1 (by decide) (by decide)]; decide
  have e : (2 : Int).toNat = 2 := rfl
  simp only [main_ranges, e, dispatch, h0, h1, List.nil_append, List.cons_append, zero_add]

/-- C4, evaluation at the failing input: the training set of two items with
labels 7 and 3, `K = 3 > N`, a testing set of two images with label 7 and two
workers.  Only two of
the three slots are filled, and the tally counts the third through the index
its storage happens to hold.  The partition is `(0, 1)`, `(1, 1)`; where the
calls of the two workers find the index 0 there, both images are classified as
7 and the sum of the two counts is 2, and where the calls of the one-worker
run find the index 1, both images are classified as 3 and the count of the
range `(0, 2)` is 0. -/
theorem aggregate_depends_on_residue :
    main_ranges tie_testing.num_items 2 = [(0, 1), (1, 1)] ∧
    main_ranges tie_testing.num_items 1 = [(0, 2)] ∧
    collect ((main_ranges tie_testing.num_items 2).map
        (fun r => child_handler (fun _ _ => 0) tie_training tie_testing 3 sq_distance r.1 r.2)) 0
      = some 2 ∧
    collect ((main_ranges tie_testing.num_items 1).map
        (fun r => child_handler (fun _ _ => 1) tie_training tie_testing 3 sq_distance r.1 r.2)) 0
      = some 0 := by
  have e : tie_testing.num_items = 2 := rfl
  rw [e, main_ranges_two, main_ranges_one 2 (by decide)]
  exact ⟨rfl, rfl, by decide, by decide⟩

/-! ## The choice of the metric -/

theorem char_eq_of_toNat_eq (c d : Char) (h : c.toNat = d.toNat) : c = d := by
  rw [← Char.ofNat_toNat c, h, Char.ofNat_toNat]

theorem strncmp_strlen (s : List Char) (hs : NUL ∉ s) :
    ∀ t : List Char, NUL ∉ t → (strncmp s t (strlen s) = 0 ↔ s <+: t) := by
  induction s with
  | nil => intro t _; simp [strlen, strncmp]
  | cons c rest ih =>
    intro t ht
    have hc : c ≠ NUL := fun h => hs (by simp [h])
    have hrest : NUL ∉ rest := fun h => hs (List.mem_cons_of_mem _ h)
    simp only [strlen, hc, if_false, strncmp, List.headD_cons, List.tail_cons]
    cases t with
    | nil =>
      simp only [List.headD_nil, ne_eq, hc, not_false_eq_true, if_true, List.prefix_nil]
      constructor
      · intro h
        exact absurd (char_eq_of_toNat_eq c NUL (by omega)) hc
      · intro h; cases h
    | cons d t2 =>
      have ht2 : NUL ∉ t2 := fun h => ht (List.mem_cons_of_mem _ h)
      simp only [List.headD_cons, List.tail_cons, List.cons_prefix_cons]
      by_cases hcd : c = d
      · subst hcd
        simp only [ne_eq, not_true_eq_false, if_false, hc, true_and]
        exact ih hrest t2 ht2
      · simp only [ne_eq, hcd, not_false_eq_true, if_true, false_and, iff_false]
        intro h
        exact hcd (char_eq_of_toNat_eq c d (by omega))

theorem select_metric_eq (s : List Char) (hs : NUL ∉ s) :
    select_metric s =
      if s <+: "euclidean".toList then Except.ok Metric.euclidean
      else if s <+: "cosine".toList then Except.ok Metric.cosine
      else Except.error 1 := by
  unfold select_metric
  simp only [strncmp_strlen s hs "euclidean".toList (by decide),
    strncmp_strlen s hs "cosine".toList (by decide)]

/-- C8 (metric selection): for every selector string `s` (a C string, so
without a NUL character), the coordinator selects Euclidean if `s` is an initial
substring of "euclidean", otherwise Cosine if `s` is an initial substring of
"cosine", and otherwise exits with status 1; the comparison is by characters,
so it is case-sensitive. -/
theorem metric_selection (s : List Char) (hs : NUL ∉ s) :
    select_metric s =
      if s <+: "euclidean".toList then Except.ok Metric.euclidean
      else if s <+: "cosine".toList then Except.ok Metric.cosine
      else Except.error 1 :=
  select_metric_eq s hs

/-- Witness of C8: "eucl" selects Euclidean, "cos" selects Cosine, the empty
string selects Euclidean, "Euclidean" and "euclideanx" are rejected. -/
theorem metric_selection_witness :
    select_metric "eucl".toList = Except.ok Metric.euclidean ∧
    select_metric "cos".toList = Except.ok Metric.cosine ∧
    select_metric [] = Except.ok Metric.euclidean ∧
    select_metric "Euclidean".toList = Except.error 1 ∧
    select_metric "euclideanx".toList = Except.error 1 :=
  ⟨(metric_selection "eucl".toList (by decide)).trans (by rfl),
   (metric_selection "cos".toList (by decide)).trans (by rfl),
   (metric_selection [] (by decide)).trans (by rfl),
   (metric_selection "Euclidean".toList (by decide)).trans (by rfl),
   (metric_selection "euclideanx".toList (by decide)).trans (by rfl)⟩

/-! ## `load_dataset` -/

theorem NUM_PIXELS_eq : NUM_PIXELS = 784 := rfl

theorem WIDTH_eq : ((WIDTH : Nat) : Int) = 28 := rfl

theorem read_items_ok (granted : Nat → Bool) (n : Nat) :
    ∀ (i : Nat) (stream : List Byte) (images : List Image) (labels : List Byte),
      n * 785 ≤ stream.length → (∀ k, k < n → granted (3 + i + k) = true) →
      ∃ imgs lbls, read_items granted true true n i stream images labels
          = .ok (images ++ imgs, labels ++ lbls) ∧
        imgs.length = n ∧ lbls.length = n ∧
        ∀ k, k < n → lbls[k]? = stream[785 * k]? ∧ imgs[k]? = some (record_image stream k) := by
  induction n with
  | zero =>
    intro i stream images labels _ _
    exact ⟨[], [], by simp [read_items], rfl, rfl, by intro k hk; omega⟩
  | succ n ih =>
    intro i stream images labels h hg
    cases stream with
    | nil => simp at h
    | cons label rest =>
      simp only [List.length_cons] at h
      have hlen : (rest.take NUM_PIXELS).length = NUM_PIXELS := by
        rw [List.length_take, NUM_PIXELS_eq]; omega
      have hdrop : n * 785 ≤ (rest.drop NUM_PIXELS).length := by
        rw [List.length_drop, NUM_PIXELS_eq]; omega
      have hg0 : granted (3 + i) = true := hg 0 (by omega)
      obtain ⟨imgs, lbls, hrun, hi, hl, hrec⟩ :=
        ih (i + 1) (rest.drop NUM_PIXELS)
          (images ++ [⟨(WIDTH : Int), (WIDTH : Int), rest.take NUM_PIXELS⟩]) (labels ++ [label])
          hdrop (fun k hk => by
            have := hg (k + 1) (by omega)
            have e : 3 + (i + 1) + k = 3 + i + (k + 1) := by omega
            rw [e]; exact this)
      refine ⟨⟨(WIDTH : Int), (WIDTH : Int), rest.take NUM_PIXELS⟩ :: imgs, label :: lbls,
        ?_, ?_, ?_, ?_⟩
      · simp only [read_items, hlen, ne_eq, not_true_eq_false, if_false, hg0,
          Bool.true_eq_false]
        rw [hrun]
        simp
      · simp [hi]
      · simp [hl]
      · intro k hkn
        cases k with
        | zero =>
          simp [record_image, WIDTH_eq, NUM_PIXELS_eq]
        | succ k =>
          obtain ⟨h1, h2⟩ := hrec k (by omega)
          have e1 : 785 * (k + 1) = (785 * k + 784) + 1 := by omega
          constructor
          · rw [List.getElem?_cons_succ, h1, e1, List.getElem?_cons_succ, NUM_PIXELS_eq,
              List.getElem?_drop]
            congr 1; omega
          · rw [List.getElem?_cons_succ, h2]
            simp only [record_image, NUM_PIXELS_eq, List.drop_drop, Option.some.injEq,
              Image.mk.injEq, true_and]
            have e2 : 785 * (k + 1) + 1 = (784 + (785 * k + 1)) + 1 := by omega
            rw [e2, List.drop_succ_cons]

theorem read_items_of_ok (granted : Nat → Bool) (labels_ok images_ok : Bool) (n : Nat) :
    ∀ (i : Nat) (stream : List Byte) (images : List Image) (labels : List Byte)
      (r : List Image × List Byte),
      read_items granted labels_ok images_ok n i stream images labels = .ok r →
      n = 0 ∨ (n * 785 ≤ stream.length ∧ labels_ok = true ∧ images_ok = true ∧
        ∀ k, k < n → granted (3 + i + k) = true) := by
  induction n with
  | zero => intro i stream images labels r _; exact Or.inl rfl
  | succ n ih =>
    intro i stream images labels r h
    right
    cases stream with
    | nil => simp only [read_items] at h; cases h
    | cons label rest =>
      simp only [read_items] at h
      by_cases hlo : labels_ok = false
      · rw [if_pos hlo] at h; cases h
      · rw [if_neg hlo] at h
        by_cases hio : images_ok = false
        · rw [if_pos hio] at h; cases h
        · rw [if_neg hio] at h
          by_cases hg : granted (3 + i) = false
          · rw [if_pos hg] at h
            cases rest with
            | nil => cases h
            | cons _ _ => cases h
          · rw [if_neg hg] at h
            by_cases hlen : (rest.take NUM_PIXELS).length ≠ NUM_PIXELS
            · rw [if_pos hlen] at h; cases h
            · rw [if_neg hlen] at h
              have hlen2 : (rest.take NUM_PIXELS).length = NUM_PIXELS := by
                by_contra hc; exact hlen hc
              rw [List.length_take, NUM_PIXELS_eq] at hlen2
              have hrest := ih (i + 1) _ _ _ r h
              rw [List.length_drop, NUM_PIXELS_eq] at hrest
              have hg2 : granted (3 + i) = true := by simpa using hg
              refine ⟨by simp only [List.length_cons]; omega, by simpa using hlo,
                by simpa using hio, ?_⟩
              intro k hk
              cases k with
              | zero => exact hg2
              | succ k =>
                rcases hrest with h0 | ⟨_, _, _, hrest⟩
                · omega
                · have := hrest k (by omega)
                  have e : 3 + i + (k + 1) = 3 + (i + 1) + k := by omega
                  rw [e]; exact this

theorem read_items_short (granted : Nat → Bool) (n : Nat) :
    ∀ (i : Nat) (stream : List Byte) (images : List Image) (labels : List Byte),
      stream.length < n * 785 → (∀ k, granted k = true) →
      read_items granted true true n i stream images labels = .error (Fatal.exit 1) := by
  induction n with
  | zero => intro i stream images labels h _; omega
  | succ n ih =>
    intro i stream images labels h hg
    cases stream with
    | nil => rfl
    | cons label rest =>
      simp only [List.length_cons] at h
      simp only [read_items, hg, Bool.true_eq_false, if_false]
      by_cases hlen : (rest.take NUM_PIXELS).length = NUM_PIXELS
      · simp only [hlen, ne_eq, not_true_eq_false, if_false]
        apply ih _ _ _ _ _ hg
        rw [List.length_take, NUM_PIXELS_eq] at hlen
        rw [List.length_drop, NUM_PIXELS_eq]
        omega
      · simp only [ne_eq, hlen, not_false_eq_true, if_true]

theorem load_dataset_count (granted : Nat → Bool) (u : Int) (b0 b1 b2 b3 : Byte)
    (records : List Byte) (h0 : granted 0 = true) :
    load_dataset granted u (b0 :: b1 :: b2 :: b3 :: records)
      = load_items granted (decode_int b0 b1 b2 b3) records := by
  have h4 : 4 ≤ (b0 :: b1 :: b2 :: b3 :: records).length := by
    simp only [List.length_cons]; omega
  have hne : ¬ ((1 : Nat) = SIZE_MAX) := by decide
  unfold load_dataset
  simp only [h0, Bool.true_eq_false, h4, if_true, hne, if_false, List.drop_succ_cons,
    List.drop_zero]

theorem load_dataset_refused (granted : Nat → Bool) (u : Int) (bytes : List Byte)
    (h0 : granted 0 = false) : load_dataset granted u bytes = .error Fatal.crash := by
  unfold load_dataset
  simp only [h0, if_true]

theorem load_items_nonpos (granted : Nat → Bool) (u : Int) (stream : List Byte) (hu : u ≤ 0) :
    load_items granted u stream = .ok ⟨u, [], []⟩ := by
  have h0 : u.toNat = 0 := by omega
  simp only [load_items, h0, read_items]

/-- A file that ends inside the count is not detected: `fread` returns 0, which
is not `-1`, the loop runs on the indeterminate `num_items`, and for a value
`u ≤ 0` of it a Dataset is returned. -/
theorem load_dataset_short_count (granted : Nat → Bool) (u : Int) (bytes : List Byte)
    (h0 : granted 0 = true) (h : bytes.length < 4) (hu : u ≤ 0) :
    load_dataset granted u bytes = .ok ⟨u, [], []⟩ := by
  have hne : ¬ ((0 : Nat) = SIZE_MAX) := by decide
  have h4 : ¬ (4 ≤ bytes.length) := by omega
  unfold load_dataset
  simp only [h0, Bool.true_eq_false, h4, if_false, hne]
  match bytes, h with
  | [], _ => exact load_items_nonpos granted u _ hu
  | [_], _ => exact load_items_nonpos granted u _ hu
  | [_, _], _ => exact load_items_nonpos granted u _ hu
  | [_, _, _], _ => exact load_items_nonpos granted u _ hu
  | _ :: _ :: _ :: _ :: _, h => simp at h; omega

theorem load_items_spec (granted : Nat → Bool) (N : Int) (records : List Byte) :
    ((∃ ds, load_items granted N records = .ok ds) ↔
      (N ≤ 0 ∨ (N * 785 ≤ (records.length : Int) ∧ granted 1 = true ∧ granted 2 = true ∧
        ∀ k, k < N.toNat → granted (3 + k) = true))) ∧
    (∀ ds, load_items granted N records = .ok ds →
      ds.num_items = N ∧ ds.labels.length = N.toNat ∧ ds.images.length = N.toNat ∧
      ∀ i, i < N.toNat →
        ds.labels[i]? = records[785 * i]? ∧
        ds.images[i]? = some (record_image records i) ∧
        (record_image records i).data.length = 784) := by
  have hload : load_items granted N records =
      match read_items granted (granted 1) (granted 2) N.toNat 0 records [] [] with
      | .error e => .error e
      | .ok (images, labels) => .ok ⟨N, images, labels⟩ := rfl
  have hof : ∀ ds, load_items granted N records = .ok ds →
      N.toNat = 0 ∨ (N.toNat * 785 ≤ records.length ∧ granted 1 = true ∧ granted 2 = true ∧
        ∀ k, k < N.toNat → granted (3 + 0 + k) = true) := by
    intro ds hds
    rw [hload] at hds
    cases hr : read_items granted (granted 1) (granted 2) N.toNat 0 records [] [] with
    | error e => rw [hr] at hds; cases hds
    | ok r => exact read_items_of_ok granted _ _ _ _ _ _ _ r hr
  constructor
  · constructor
    · rintro ⟨ds, hds⟩
      rcases hof ds hds with h | ⟨h1, h2, h3, h4⟩
      · left; omega
      · by_cases hN : N ≤ 0
        · exact Or.inl hN
        · right
          refine ⟨by omega, h2, h3, ?_⟩
          intro k hk
          have := h4 k hk
          rwa [Nat.add_zero] at this
    · rintro (hN | ⟨h1, h2, h3, h4⟩)
      · exact ⟨_, load_items_nonpos granted N records hN⟩
      · obtain ⟨imgs, lbls, hrun, _, _, _⟩ := read_items_ok granted N.toNat 0 records [] []
          (by omega) (fun k hk => by rw [Nat.add_zero]; exact h4 k hk)
        rw [h2, h3, hrun] at hload
        exact ⟨_, hload⟩
  · intro ds hds
    have hcond := hof ds hds
    have hdone : ∃ imgs lbls, read_items granted (granted 1) (granted 2) N.toNat 0 records [] []
          = .ok ([] ++ imgs, [] ++ lbls) ∧ imgs.length = N.toNat ∧ lbls.length = N.toNat ∧
        ∀ k, k < N.toNat →
          lbls[k]? = records[785 * k]? ∧ imgs[k]? = some (record_image records k) := by
      rcases hcond with h | ⟨h1, h2, h3, h4⟩
      · rw [h]
        exact ⟨[], [], rfl, rfl, rfl, by intro k hk; omega⟩
      · rw [h2, h3]
        exact read_items_ok granted N.toNat 0 records [] [] h1 h4
    obtain ⟨imgs, lbls, hrun, hi, hl, hrec⟩ := hdone
    rw [hload, hrun] at hds
    simp only [List.nil_append] at hds
    cases hds
    refine ⟨rfl, hl, hi, ?_⟩
    intro i hin
    refine ⟨(hrec i hin).1, (hrec i hin).2, ?_⟩
    have hbytes : N.toNat * 785 ≤ records.length := by
      rcases hcond with h | ⟨h1, _⟩
      · omega
      · exact h1
    simp only [record_image, List.length_take, List.length_drop]
    have : 785 * (i + 1) ≤ 785 * N.toNat := Nat.mul_le_mul_left _ hin
    omega

theorem load_items_short (granted : Nat → Bool) (N : Int) (records : List Byte)
    (hg : ∀ k, granted k = true) (hshort : (records.length : Int) < N * 785) :
    load_items granted N records = .error (Fatal.exit 1) := by
  have hlt : records.length < N.toNat * 785 := by omega
  simp only [load_items, hg, read_items_short granted N.toNat 0 records [] [] hlt hg]

/-- With every allocation granted, a count `N > 0` that fewer than `N * 785`
bytes follow ends the program with `exit(1)`. -/
theorem load_dataset_short_records (granted : Nat → Bool) (u : Int) (b0 b1 b2 b3 : Byte)
    (records : List Byte) (hg : ∀ k, granted k = true)
    (hshort : (records.length : Int) < decode_int b0 b1 b2 b3 * 785) :
    load_dataset granted u (b0 :: b1 :: b2 :: b3 :: records) = .error (Fatal.exit 1) := by
  rw [load_dataset_count granted u b0 b1 b2 b3 records (hg 0)]
  exact load_items_short granted _ records hg hshort

/-- C7, as amended: for every byte sequence that starts with a complete 4-byte
count `N`, `load_dataset` returns a Dataset if and only if the memory for the
Dataset is granted and either `N ≤ 0`, or at least `N * 785` bytes follow the
count and the memory for the labels, the images and the `N` pixel buffers is
granted.  The Dataset returned has `num_items = N` and exactly `max N 0` labels
and images, each image 28 by 28 with 784 pixels, equal in order to the (label
byte, 784 pixel bytes) records of the stream.  On every other such sequence
(the stream ends in a label or in the pixels, or memory is refused) the load
fails fatally instead of returning a Dataset. -/
theorem load_dataset_wellformed (granted : Nat → Bool) (u : Int) (b0 b1 b2 b3 : Byte)
    (records : List Byte) :
    ((∃ ds, load_dataset granted u (b0 :: b1 :: b2 :: b3 :: records) = .ok ds) ↔
      (granted 0 = true ∧
        (decode_int b0 b1 b2 b3 ≤ 0 ∨
          (decode_int b0 b1 b2 b3 * 785 ≤ (records.length : Int) ∧
            granted 1 = true ∧ granted 2 = true ∧
            ∀ k, k < (decode_int b0 b1 b2 b3).toNat → granted (3 + k) = true)))) ∧
    (∀ ds, load_dataset granted u (b0 :: b1 :: b2 :: b3 :: records) = .ok ds →
      ds.num_items = decode_int b0 b1 b2 b3 ∧
      ds.labels.length = (decode_int b0 b1 b2 b3).toNat ∧
      ds.images.length = (decode_int b0 b1 b2 b3).toNat ∧
      ∀ i, i < (decode_int b0 b1 b2 b3).toNat →
        ds.labels[i]? = records[785 * i]? ∧
        ds.images[i]? = some (record_image records i) ∧
        (record_image records i).data.length = 784) ∧
    (¬ (granted 0 = true ∧
        (decode_int b0 b1 b2 b3 ≤ 0 ∨
          (decode_int b0 b1 b2 b3 * 785 ≤ (records.length : Int) ∧
            granted 1 = true ∧ granted 2 = true ∧
            ∀ k, k < (decode_int b0 b1 b2 b3).toNat → granted (3 + k) = true))) →
      ∃ e, load_dataset granted u (b0 :: b1 :: b2 :: b3 :: records) = .error e) := by
  cases h0 : granted 0 with
  | false =>
    have hcrash := load_dataset_refused granted u (b0 :: b1 :: b2 :: b3 :: records) h0
    rw [hcrash]
    refine ⟨⟨?_, ?_⟩, ?_, fun _ => ⟨_, rfl⟩⟩
    · rintro ⟨ds, hds⟩; cases hds
    · rintro ⟨h, _⟩; cases h
    · intro ds hds; cases hds
  | true =>
    rw [load_dataset_count granted u b0 b1 b2 b3 records h0]
    obtain ⟨h1, h2⟩ := load_items_spec granted (decode_int b0 b1 b2 b3) records
    refine ⟨?_, h2, ?_⟩
    · rw [h1]
      simp only [true_and]
    · intro hnot
      cases hr : load_items granted (decode_int b0 b1 b2 b3) records with
      | error e => exact ⟨e, rfl⟩
      | ok ds =>
        exfalso
        apply hnot
        exact ⟨rfl, h1.mp ⟨ds, hr⟩⟩

/-- Counterexample to C7 as stated: the four bytes `FF FF FF FF` are a complete
count `N = -1`, which is not `≥ 0`, and `load_dataset` returns a Dataset, with
`num_items = -1` and no label and no image (the two allocations of `-1` items
may be refused: their memory is never used). -/
theorem load_dataset_negative_count :
    decode_int 255 255 255 255 = -1 ∧ ¬ (0 ≤ decode_int 255 255 255 255) ∧
    load_dataset (fun k => decide (k = 0)) 0 [255, 255, 255, 255] = .ok ⟨-1, [], []⟩ := by
  refine ⟨rfl, by decide, rfl⟩

/-! ## The coordinator -/

theorem main_rejected (garbage : Nat → Nat → Int) (granted : Nat → Nat → Bool) (u : Nat → Int)
    (distance_euclidean distance_cosine : Image → Image → Dbl)
    (K : Int) (dist_metric : List Char) (num_procs : Int)
    (training_file testing_file : Option (List Byte)) (st : Int)
    (h : select_metric dist_metric = .error st) :
    main garbage granted u distance_euclidean distance_cosine K dist_metric num_procs
      training_file testing_file = some ⟨st, 0, none⟩ := by
  simp only [main, h]

theorem main_loaded (garbage : Nat → Nat → Int) (granted : Nat → Nat → Bool) (u : Nat → Int)
    (distance_euclidean distance_cosine : Image → Image → Dbl)
    (K : Int) (dist_metric : List Char) (num_procs : Int)
    (training_file testing_file : Option (List Byte)) (m : Metric) (training testing : Dataset)
    (h : select_metric dist_metric = .ok m)
    (htr : training_file.map (load_dataset (granted 0) (u 0)) = some (.ok training))
    (hte : testing_file.map (load_dataset (granted 1) (u 1)) = some (.ok testing))
    (hP : 0 ≤ num_procs) :
    main garbage granted u distance_euclidean distance_cosine K dist_metric num_procs
      training_file testing_file =
    match collect ((main_ranges testing.num_items num_procs).map
        (fun r => child_handler garbage training testing K
          (match m with
            | Metric.euclidean => distance_euclidean
            | Metric.cosine => distance_cosine) r.1 r.2)) 0 with
    | none => none
    | some total_correct =>
      some ⟨0, (main_ranges testing.num_items num_procs).length, some (total_correct : Int)⟩ := by
  have hP2 : ¬ num_procs < 0 := by omega
  simp only [main, h, htr, hte, hP2, if_false]

/-- C9, as amended: for every resolved configuration in which the metric
selector is an initial substring of neither "euclidean" nor "cosine", the
coordinator terminates with exit status 1 before any worker is forked and
without printing a result line, whatever `K`, the worker count and the files
are. -/
theorem invalid_configuration (garbage : Nat → Nat → Int) (granted : Nat → Nat → Bool)
    (u : Nat → Int) (distance_euclidean distance_cosine : Image → Image → Dbl)
    (K : Int) (dist_metric : List Char) (num_procs : Int)
    (training_file testing_file : Option (List Byte)) (hs : NUL ∉ dist_metric)
    (h1 : ¬ dist_metric <+: "euclidean".toList) (h2 : ¬ dist_metric <+: "cosine".toList) :
    main garbage granted u distance_euclidean distance_cosine K dist_metric num_procs
      training_file testing_file = some ⟨1, 0, none⟩ := by
  apply main_rejected
  rw [select_metric_eq dist_metric hs, if_neg h1, if_neg h2]

/-- Witness of C9: the selector "manhattan" with `K = 1`, one worker and two
empty dataset files. -/
theorem invalid_configuration_witness :
    main (fun _ _ => 0) (fun _ _ => true) (fun _ => 0) sq_distance sq_distance 1
      "manhattan".toList 1 (some empty_file) (some empty_file) = some ⟨1, 0, none⟩ :=
  invalid_configuration (fun _ _ => 0) (fun _ _ => true) (fun _ => 0) sq_distance sq_distance 1
    "manhattan".toList 1 (some empty_file) (some empty_file) (by decide) (by decide) (by decide)

/-- Counterexample to C9 as stated: with `-p 0` (and `K = 1`, "euclidean", two
empty dataset files) the coordinator does not exit with status 1: it forks no
worker, prints the result line `0` and exits with status 0.  With `-K 0` (one
worker, a training file and a testing file of one item with label 1 each) it
forks the worker, the worker classifies the test image with `K = 0`, and the
coordinator prints the result line `1` and exits with status 0. -/
theorem invalid_configuration_not_rejected :
    main (fun _ _ => 0) (fun _ _ => true) (fun _ => 0) sq_distance sq_distance 1
      "euclidean".toList 0 (some empty_file) (some empty_file) = some ⟨0, 0, some 0⟩ ∧
    main (fun _ _ => 0) (fun _ _ => true) (fun _ => 0) sq_distance sq_distance 0
      "euclidean".toList 1 (some (one_item_file 1)) (some (one_item_file 1))
      = some ⟨0, 1, some 1⟩ := by
  constructor
  · rfl
  · have hl : load_dataset (fun _ => true) 0 (one_item_file 1)
        = .ok ⟨1, [⟨28, 28, List.replicate 784 0⟩], [1]⟩ := by
      have h : (load_dataset (fun _ => true) 0 (one_item_file 1)).toOption
          = some ⟨1, [⟨28, 28, List.replicate 784 0⟩], [1]⟩ := by
        set_option maxRecDepth 10000 in decide
      revert h
      cases load_dataset (fun _ => true) 0 (one_item_file 1) with
      | error e => intro h; cases h
      | ok d => intro h; cases h; rfl
    rw [main_loaded (fun _ _ => 0) (fun _ _ => true) (fun _ => 0) sq_distance sq_distance 0
      "euclidean".toList 1 (some (one_item_file 1)) (some (one_item_file 1)) Metric.euclidean
      ⟨1, [⟨28, 28, List.replicate 784 0⟩], [1]⟩ ⟨1, [⟨28, 28, List.replicate 784 0⟩], [1]⟩
      (by rfl) (by rw [Option.map_some', hl]) (by rw [Option.map_some', hl]) (by decide)]
    rw [main_ranges_one 1 (by decide)]
    set_option maxRecDepth 10000 in decide

/-! ## The candidate scan of `knn_predict` -/

theorem Dbl.lt_irrefl (a : Dbl) : Dbl.lt a a = false := by
  cases a <;> simp [Dbl.lt]

theorem Dbl.ge_trans (a b c : Dbl) (ha : a.finite_or_inf) (hb : b.finite_or_inf)
    (hc : c.finite_or_inf) (h1 : Dbl.lt a b = false) (h2 : Dbl.lt b c = false) :
    Dbl.lt a c = false := by
  cases a <;> cases b <;> cases c <;>
    first
      | (simp_all [Dbl.lt, Dbl.finite_or_inf]; done)
      | (simp_all [Dbl.lt, Dbl.finite_or_inf]; linarith)

theorem Dbl.lt_trans (a b c : Dbl) (h1 : Dbl.lt a b = true) (h2 : Dbl.lt b c = true) :
    Dbl.lt a c = true := by
  cases a <;> cases b <;> cases c <;>
    first
      | (simp_all [Dbl.lt]; done)
      | (simp_all [Dbl.lt]; linarith)

theorem Dbl.not_lt_of_lt_of_ge (a b c : Dbl) (ha : a.finite_or_inf) (hb : b.finite_or_inf)
    (hc : c.finite_or_inf) (h1 : Dbl.lt a b = true) (h2 : Dbl.lt c b = false) :
    Dbl.lt c a = false := by
  cases a <;> cases b <;> cases c <;>
    first
      | (simp_all [Dbl.lt, Dbl.finite_or_inf]; done)
      | (simp_all [Dbl.lt, Dbl.finite_or_inf]; linarith)

theorem find_max_spec (s : List Knn_item) :
    ∀ (j : Nat) (st : Dbl × Nat), (∀ x ∈ s, x.dist.finite_or_inf) → st.1.finite_or_inf →
      (find_max s j st).1.finite_or_inf ∧
      (∀ x ∈ s, Dbl.lt (find_max s j st).1 x.dist = false) ∧
      Dbl.lt (find_max s j st).1 st.1 = false ∧
      (find_max s j st = st ∨
        ∃ k, ∃ h : k < s.length, (find_max s j st).2 = j + k ∧
          (s.get ⟨k, h⟩).dist = (find_max s j st).1 ∧ Dbl.lt st.1 (find_max s j st).1 = true) := by
  induction s with
  | nil =>
    intro j st _ hst
    exact ⟨hst, by simp, Dbl.lt_irrefl _, Or.inl rfl⟩
  | cons it rest ih =>
    intro j st hs hst
    have hit : it.dist.finite_or_inf := hs it (List.mem_cons_self _ _)
    have hrest : ∀ x ∈ rest, x.dist.finite_or_inf := fun x hx => hs x (List.mem_cons_of_mem _ hx)
    by_cases hlt : Dbl.lt st.1 it.dist = true
    · have e : find_max (it :: rest) j st = find_max rest (j + 1) (it.dist, j) := by
        simp [find_max, hlt]
      rw [e]
      obtain ⟨h1, h2, h3, h4⟩ := ih (j + 1) (it.dist, j) hrest hit
      refine ⟨h1, ?_, ?_, Or.inr ?_⟩
      · intro x hx
        rcases List.mem_cons.mp hx with rfl | hx
        · exact h3
        · exact h2 x hx
      · exact Dbl.not_lt_of_lt_of_ge _ _ _ hst hit h1 hlt h3
      · rcases h4 with h4 | ⟨k, hk, hk1, hk2, hk3⟩
        · refine ⟨0, by simp, ?_, ?_, ?_⟩
          · rw [h4]; rfl
          · rw [h4]; rfl
          · rw [h4]; exact hlt
        · refine ⟨k + 1, by simp; omega, ?_, ?_, ?_⟩
          · rw [hk1]; omega
          · simpa using hk2
          · exact Dbl.lt_trans _ _ _ hlt hk3
    · have hlt2 : Dbl.lt st.1 it.dist = false := by simpa using hlt
      have e : find_max (it :: rest) j st = find_max rest (j + 1) st := by
        simp [find_max, hlt2]
      rw [e]
      obtain ⟨h1, h2, h3, h4⟩ := ih (j + 1) st hrest hst
      refine ⟨h1, ?_, h3, ?_⟩
      · intro x hx
        rcases List.mem_cons.mp hx with rfl | hx
        · exact Dbl.ge_trans _ _ _ h1 hst hit h3 hlt2
        · exact h2 x hx
      · rcases h4 with h4 | ⟨k, hk, hk1, hk2, hk3⟩
        · exact Or.inl h4
        · refine Or.inr ⟨k + 1, by simp; omega, ?_, ?_, hk3⟩
          · rw [hk1]; omega
          · simpa using hk2

/-- What one iteration of the scan does to slots that hold finite values or
`INFINITY`, for a finite distance: nothing when the distance is not below any
slot, a replacement of a slot of maximum distance when it is below it, and,
when no slot is above the initial `-1`, a replacement of slot 0 when the
distance is below `-1`. -/
theorem scan_step_spec (s : List Knn_item) (i : Nat) (q : ℚ) (hlen : 0 < s.length)
    (hs : ∀ x ∈ s, x.dist.finite_or_inf) :
    (scan_step s i (Dbl.fin q) = some s ∧ ∀ x ∈ s, Dbl.lt (Dbl.fin q) x.dist = false) ∨
    (∃ k, ∃ h : k < s.length, scan_step s i (Dbl.fin q) = some (s.set k ⟨Dbl.fin q, (i : Int)⟩) ∧
      Dbl.lt (Dbl.fin q) (s.get ⟨k, h⟩).dist = true ∧
      ∀ x ∈ s, Dbl.lt (s.get ⟨k, h⟩).dist x.dist = false) ∨
    (scan_step s i (Dbl.fin q) = some (s.set 0 ⟨Dbl.fin q, (i : Int)⟩) ∧ q < -1 ∧
      ∀ x ∈ s, Dbl.lt (Dbl.fin (-1)) x.dist = false) := by
  obtain ⟨h1, h2, _, h4⟩ := find_max_spec s 0 (Dbl.fin (-1), 0) hs trivial
  by_cases hlt : Dbl.lt (Dbl.fin q) (find_max s 0 (Dbl.fin (-1), 0)).1 = true
  · rcases h4 with h4 | ⟨k, hk, hk1, hk2, _⟩
    · right; right
      rw [h4] at hlt h2
      refine ⟨?_, ?_, h2⟩
      · simp only [scan_step, h4, hlt, if_true, hlen]
      · simpa [Dbl.lt] using hlt
    · right; left
      have hk0 : (find_max s 0 (Dbl.fin (-1), 0)).2 = k := by omega
      refine ⟨k, hk, ?_, ?_, ?_⟩
      · simp only [scan_step, hlt, if_true, hk0, hk]
      · rw [hk2]; exact hlt
      · rw [hk2]; exact h2
  · left
    have hlt2 : Dbl.lt (Dbl.fin q) (find_max s 0 (Dbl.fin (-1), 0)).1 = false := by
      simpa using hlt
    refine ⟨?_, ?_⟩
    · simp [scan_step, hlt2]
    · intro x hx
      exact Dbl.ge_trans _ _ _ trivial h1 (hs x hx) hlt2 (h2 x hx)

/-! ### Lists of slots -/

theorem countP_set_of_not {α : Type} (p : α → Bool) (x : α) (hx : p x = false) (s : List α) :
    ∀ (k : Nat) (h : k < s.length),
      (s.set k x).countP p + (if p (s.get ⟨k, h⟩) = true then 1 else 0) = s.countP p := by
  induction s with
  | nil => intro k h; simp at h
  | cons a rest ih =>
    intro k h
    cases k with
    | zero =>
      simp only [List.set_cons_zero, List.countP_cons, hx, List.get_eq_getElem,
        List.getElem_cons_zero]
      simp
    | succ k =>
      have h2 : k < rest.length := by simpa using h
      have := ih k h2
      simp only [List.set_cons_succ, List.countP_cons, List.get_eq_getElem,
        List.getElem_cons_succ] at this ⊢
      omega

theorem pairwise_set {α : Type} (R : α → α → Prop) (x : α) (s : List α) :
    ∀ (k : Nat), s.Pairwise R → (∀ y ∈ s, R y x ∧ R x y) → (s.set k x).Pairwise R := by
  induction s with
  | nil => intro k _ _; simp
  | cons a rest ih =>
    intro k hp hx
    rw [List.pairwise_cons] at hp
    cases k with
    | zero =>
      rw [List.set_cons_zero, List.pairwise_cons]
      exact ⟨fun y hy => (hx y (List.mem_cons_of_mem _ hy)).2, hp.2⟩
    | succ k =>
      rw [List.set_cons_succ, List.pairwise_cons]
      refine ⟨?_, ih k hp.2 (fun y hy => hx y (List.mem_cons_of_mem _ hy))⟩
      intro y hy
      rcases List.mem_or_eq_of_mem_set hy with hy | rfl
      · exact hp.1 y hy
      · exact (hx a (List.mem_cons_self _ _)).1

theorem mem_set_of_ne {α : Type} (x y : α) (s : List α) (k : Nat) (h : k < s.length)
    (hy : y ∈ s) (hne : y ≠ s.get ⟨k, h⟩) : y ∈ s.set k x := by
  obtain ⟨p, hp, rfl⟩ := List.getElem_of_mem hy
  have hpk : k ≠ p := by
    intro e
    subst e
    exact hne rfl
  have : (s.set k x)[p]? = some s[p] := by
    rw [List.getElem?_set, if_neg hpk, List.getElem?_eq_getElem hp]
  exact List.getElem?_mem this

theorem mem_set_self {α : Type} (x : α) (s : List α) (k : Nat) (h : k < s.length) :
    x ∈ s.set k x := by
  have : (s.set k x)[k]? = some x := by
    rw [List.getElem?_set, if_pos rfl, if_pos h]
  exact List.getElem?_mem this

/-! ### The slots are filled -/

theorem knn_scan_succ (garbage : Nat → Int) (data : Dataset) (input : Image) (K : Int)
    (fptr : Image → Image → Dbl) (i : Nat) (s : List Knn_item) (img : Image)
    (hs : knn_scan garbage data input K fptr i = some s) (himg : data.images[i]? = some img) :
    knn_scan garbage data input K fptr (i + 1) = scan_step s i (fptr img input) := by
  simp only [knn_scan, hs, himg]

theorem dist_of_eq (data : Dataset) (input : Image) (fptr : Image → Image → Dbl) (j : Nat)
    (img : Image) (h : data.images[j]? = some img) :
    dist_of data input fptr j = fptr img input := by
  simp only [dist_of, h]

theorem dist_of_fin (data : Dataset) (input : Image) (fptr : Image → Image → Dbl)
    (hfin : ∀ img ∈ data.images, ∃ q, fptr img input = Dbl.fin q) (j : Nat)
    (hj : j < data.images.length) : ∃ q, dist_of data input fptr j = Dbl.fin q := by
  have h : data.images[j]? = some data.images[j] := List.getElem?_eq_getElem hj
  rw [dist_of_eq data input fptr j _ h]
  exact hfin _ (List.getElem_mem hj)

/-- The slots after `i` iterations of the scan over finite distances, for
`K ≥ 1`: there are `K` of them, each is still at `INFINITY` or holds an index
below `i` with its distance, and `K - min i K` of them are still at `INFINITY`. -/
theorem scan_fill (garbage : Nat → Int) (data : Dataset) (input : Image) (K : Int)
    (fptr : Image → Image → Dbl) (hK : 1 ≤ K)
    (hfin : ∀ img ∈ data.images, ∃ q, fptr img input = Dbl.fin q) (i : Nat) :
    i ≤ data.images.length →
    ∃ s, knn_scan garbage data input K fptr i = some s ∧ s.length = K.toNat ∧
      (∀ it ∈ s, it.dist = Dbl.pinf ∨
        ∃ j, j < i ∧ it.img_idx = (j : Int) ∧ it.dist = dist_of data input fptr j) ∧
      s.countP (fun it => decide (it.dist = Dbl.pinf)) + min i K.toNat = K.toNat := by
  induction i with
  | zero =>
    intro _
    have hK0 : ¬ K < 0 := by omega
    refine ⟨init_smallest garbage K.toNat, by simp only [knn_scan, hK0, if_false],
      by simp [init_smallest], ?_, ?_⟩
    · intro it hit
      left
      simp only [init_smallest, List.mem_map] at hit
      obtain ⟨j, _, rfl⟩ := hit
      rfl
    · have : (init_smallest garbage K.toNat).countP (fun it => decide (it.dist = Dbl.pinf))
          = (init_smallest garbage K.toNat).length := by
        rw [List.countP_eq_length]
        intro it hit
        simp only [init_smallest, List.mem_map] at hit
        obtain ⟨j, _, rfl⟩ := hit
        simp
      rw [this]
      simp [init_smallest]
  | succ i ih =>
    intro hi
    obtain ⟨s, hs, hlen, hslots, hcount⟩ := ih (by omega)
    have himg : data.images[i]? = some data.images[i] := List.getElem?_eq_getElem (by omega)
    obtain ⟨q, hq⟩ := hfin _ (List.getElem_mem (by omega : i < data.images.length))
    have hdi : dist_of data input fptr i = Dbl.fin q := by
      rw [dist_of_eq data input fptr i _ himg, hq]
    have hval : ∀ x ∈ s, x.dist.finite_or_inf := by
      intro x hx
      rcases hslots x hx with h | ⟨j, hj, _, h⟩
      · rw [h]; trivial
      · obtain ⟨r, hr⟩ := dist_of_fin data input fptr hfin j (by omega)
        rw [h, hr]; trivial
    have hpos : 0 < s.length := by omega
    rw [knn_scan_succ garbage data input K fptr i s _ hs himg, hq]
    have hnew : ∀ it, it = (⟨Dbl.fin q, (i : Int)⟩ : Knn_item) →
        it.dist = Dbl.pinf ∨
          ∃ j, j < i + 1 ∧ it.img_idx = (j : Int) ∧ it.dist = dist_of data input fptr j := by
      intro it hit
      right
      exact ⟨i, by omega, by rw [hit], by rw [hit, hdi]⟩
    have hold : ∀ it ∈ s, it.dist = Dbl.pinf ∨
          ∃ j, j < i + 1 ∧ it.img_idx = (j : Int) ∧ it.dist = dist_of data input fptr j := by
      intro it hit
      rcases hslots it hit with h | ⟨j, hj, h1, h2⟩
      · exact Or.inl h
      · exact Or.inr ⟨j, by omega, h1, h2⟩
    have hset : ∀ k, ∀ it ∈ s.set k (⟨Dbl.fin q, (i : Int)⟩ : Knn_item), it.dist = Dbl.pinf ∨
          ∃ j, j < i + 1 ∧ it.img_idx = (j : Int) ∧ it.dist = dist_of data input fptr j := by
      intro k it hit
      rcases List.mem_or_eq_of_mem_set hit with h | h
      · exact hold it h
      · exact hnew it h
    have hnone : (∀ x ∈ s, x.dist ≠ Dbl.pinf) →
        s.countP (fun it => decide (it.dist = Dbl.pinf)) = 0 := by
      intro h
      rw [List.countP_eq_zero]
      intro x hx
      simpa using h x hx
    have hnp : (fun it : Knn_item => decide (it.dist = Dbl.pinf)) ⟨Dbl.fin q, (i : Int)⟩ = false := by
      simp
    rcases scan_step_spec s i q hpos hval with ⟨h1, h2⟩ | ⟨k, hk, h1, h2, h3⟩ | ⟨h1, _, h3⟩
    · refine ⟨s, h1, hlen, hold, ?_⟩
      have h0 := hnone (by
        intro x hx hp
        have := h2 x hx
        rw [hp] at this
        simp [Dbl.lt] at this)
      omega
    · refine ⟨_, h1, by simp [hlen], hset k, ?_⟩
      have hc := countP_set_of_not (fun it : Knn_item => decide (it.dist = Dbl.pinf)) _ hnp s k hk
      by_cases hp : (s.get ⟨k, hk⟩).dist = Dbl.pinf
      · simp only [hp, decide_True, if_true] at hc
        omega
      · have h0 := hnone (by
          intro x hx hxp
          have := h3 x hx
          rw [hxp] at this
          have hv := hval _ (List.get_mem s k hk)
          revert this hp hv
          cases (s.get ⟨k, hk⟩).dist <;> simp [Dbl.lt, Dbl.finite_or_inf])
        simp only [hp, decide_False] at hc
        simp only [Bool.false_eq_true, if_false, add_zero] at hc
        omega
    · have h0 := hnone (by
        intro x hx hp
        have := h3 x hx
        rw [hp] at this
        simp [Dbl.lt] at this)
      refine ⟨_, h1, by simp [hlen], hset 0, ?_⟩
      have hc := countP_set_of_not (fun it : Knn_item => decide (it.dist = Dbl.pinf)) _ hnp s 0 hpos
      have hp : (s.get ⟨0, hpos⟩).dist ≠ Dbl.pinf := by
        intro hp
        have := h3 _ (List.get_mem s 0 hpos)
        rw [hp] at this
        simp [Dbl.lt] at this
      simp only [hp, decide_False, Bool.false_eq_true, if_false, add_zero] at hc
      omega

/-! ### The slots hold the closest items -/

/-- The slots after `i` iterations of the scan over finite non-negative
distances, for `K ≥ 1`: two slots that are filled hold different indices,
and an item below `i` that no filled slot holds is not closer than any slot. -/
theorem scan_sel (garbage : Nat → Int) (data : Dataset) (input : Image) (K : Int)
    (fptr : Image → Image → Dbl) (hK : 1 ≤ K)
    (hfin : ∀ img ∈ data.images, ∃ q, fptr img input = Dbl.fin q ∧ 0 ≤ q) (i : Nat) :
    i ≤ data.images.length →
    ∃ s, knn_scan garbage data input K fptr i = some s ∧
      s.Pairwise (fun a b => a.dist = Dbl.pinf ∨ b.dist = Dbl.pinf ∨ a.img_idx ≠ b.img_idx) ∧
      ∀ j, j < i → (∀ it ∈ s, it.dist = Dbl.pinf ∨ it.img_idx ≠ (j : Int)) →
        ∀ it ∈ s, Dbl.lt (dist_of data input fptr j) it.dist = false := by
  have hfin2 : ∀ img ∈ data.images, ∃ q, fptr img input = Dbl.fin q := by
    intro img himg
    obtain ⟨q, hq, _⟩ := hfin img himg
    exact ⟨q, hq⟩
  induction i with
  | zero =>
    intro _
    have hK0 : ¬ K < 0 := by omega
    refine ⟨init_smallest garbage K.toNat, by simp only [knn_scan, hK0, if_false], ?_, ?_⟩
    · apply List.pairwise_of_forall_mem_list
      intro a ha b _
      left
      simp only [init_smallest, List.mem_map] at ha
      obtain ⟨j, _, rfl⟩ := ha
      rfl
    · intro j hj; omega
  | succ i ih =>
    intro hi
    obtain ⟨s, hs, hpair, hcov⟩ := ih (by omega)
    obtain ⟨s2, hs2, hlen, hslots, _⟩ :=
      scan_fill garbage data input K fptr hK hfin2 i (by omega)
    rw [hs] at hs2
    cases hs2
    have himg : data.images[i]? = some data.images[i] := List.getElem?_eq_getElem (by omega)
    obtain ⟨q, hq, hq1⟩ := hfin _ (List.getElem_mem (by omega : i < data.images.length))
    have hdi : dist_of data input fptr i = Dbl.fin q := by
      rw [dist_of_eq data input fptr i _ himg, hq]
    have hdval : ∀ j, j < i → (dist_of data input fptr j).finite_or_inf := by
      intro j hj
      obtain ⟨r, hr⟩ := dist_of_fin data input fptr hfin2 j (by omega)
      rw [hr]; trivial
    have hval : ∀ x ∈ s, x.dist.finite_or_inf := by
      intro x hx
      rcases hslots x hx with h | ⟨j, hj, _, h⟩
      · rw [h]; trivial
      · rw [h]; exact hdval j hj
    have hpos : 0 < s.length := by omega
    rw [knn_scan_succ garbage data input K fptr i s _ hs himg, hq]
    rcases scan_step_spec s i q hpos hval with ⟨h1, h2⟩ | ⟨k, hk, h1, h2, h3⟩ | ⟨_, h2, _⟩
    · refine ⟨s, h1, hpair, ?_⟩
      intro j hj hne it hit
      by_cases hji : j = i
      · rw [hji, hdi]; exact h2 it hit
      · exact hcov j (by omega) hne it hit
    · refine ⟨_, h1, ?_, ?_⟩
      · apply pairwise_set _ _ _ _ hpair
        intro y hy
        rcases hslots y hy with h | ⟨j, hj, hidx, _⟩
        · exact ⟨Or.inl h, Or.inr (Or.inl h)⟩
        · refine ⟨Or.inr (Or.inr ?_), Or.inr (Or.inr ?_)⟩
          · rw [hidx]; simp only [ne_eq, Nat.cast_inj]; omega
          · rw [hidx]; simp only [ne_eq, Nat.cast_inj]; omega
      · intro j hj hne it hit
        have hnew : (⟨Dbl.fin q, (i : Int)⟩ : Knn_item) ∈ s.set k ⟨Dbl.fin q, (i : Int)⟩ :=
          mem_set_self _ s k hk
        have hji : j ≠ i := by
          intro e
          rcases hne _ hnew with h | h
          · cases h
          · exact h (by rw [e])
        have hmval : (s.get ⟨k, hk⟩).dist.finite_or_inf := hval _ (List.get_mem s k hk)
        have hjm : Dbl.lt (dist_of data input fptr j) (s.get ⟨k, hk⟩).dist = false := by
          by_cases hheld : ∀ x ∈ s, x.dist = Dbl.pinf ∨ x.img_idx ≠ (j : Int)
          · exact hcov j (by omega) hheld _ (List.get_mem s k hk)
          · push_neg at hheld
            obtain ⟨x, hx, hxp, hxj⟩ := hheld
            have hxk : x = s.get ⟨k, hk⟩ := by
              by_contra hxk
              rcases hne x (mem_set_of_ne _ x s k hk hx hxk) with h | h
              · exact hxp h
              · exact h hxj
            rcases hslots x hx with h | ⟨j2, _, hidx, hd⟩
            · exact absurd h hxp
            · have : j2 = j := by
                rw [hidx] at hxj
                exact_mod_cast hxj
              rw [← hxk, hd, this]
              exact Dbl.lt_irrefl _
        rcases List.mem_or_eq_of_mem_set hit with hit | hit
        · exact Dbl.ge_trans _ _ _ (hdval j (by omega)) hmval (hval it hit) hjm (h3 it hit)
        · rw [hit]
          exact Dbl.not_lt_of_lt_of_ge _ _ _ trivial hmval (hdval j (by omega)) h2 hjm
    · linarith

/-- C1: for every training set of `N` items, every query image, every metric
whose values on these inputs are finite (a distance is a non-negative real; no
NaN, no infinity) and every `K` with `1 ≤ K ≤ N`, after the scan loop the `K`
slots hold `K` pairwise distinct training indices in `[0, N)`, each slot's
stored distance is the metric value of its stored index, and every training
item whose index is in no slot has a distance `≥` every distance stored in a
slot. -/
theorem knn_selects_closest (garbage : Nat → Int) (data : Dataset) (input : Image) (K : Int)
    (fptr : Image → Image → Dbl) (hwf : (data.images.length : Int) = data.num_items)
    (hK1 : 1 ≤ K) (hKN : K ≤ data.num_items)
    (hfin : ∀ img ∈ data.images, ∃ q, fptr img input = Dbl.fin q ∧ 0 ≤ q) :
    ∃ smallest, knn_scan garbage data input K fptr data.num_items.toNat = some smallest ∧
      smallest.length = K.toNat ∧
      (∀ it ∈ smallest, 0 ≤ it.img_idx ∧ it.img_idx < data.num_items ∧
        it.dist = dist_of data input fptr it.img_idx.toNat) ∧
      (smallest.map Knn_item.img_idx).Nodup ∧
      (∀ j : Nat, (j : Int) < data.num_items → (j : Int) ∉ smallest.map Knn_item.img_idx →
        ∀ it ∈ smallest, ∃ q r, dist_of data input fptr j = Dbl.fin q ∧ it.dist = Dbl.fin r ∧
          r ≤ q) := by
  have hfin2 : ∀ img ∈ data.images, ∃ q, fptr img input = Dbl.fin q := by
    intro img himg
    obtain ⟨q, hq, _⟩ := hfin img himg
    exact ⟨q, hq⟩
  have hN : data.num_items.toNat = data.images.length := by omega
  obtain ⟨s, hs, hlen, hslots, hcount⟩ :=
    scan_fill garbage data input K fptr hK1 hfin2 data.num_items.toNat (by omega)
  obtain ⟨s2, hs2, hpair, hcov⟩ :=
    scan_sel garbage data input K fptr hK1 hfin data.num_items.toNat (by omega)
  rw [hs] at hs2
  cases hs2
  have hc0 : s.countP (fun it => decide (it.dist = Dbl.pinf)) = 0 := by omega
  have hfilled : ∀ it ∈ s, it.dist ≠ Dbl.pinf := by
    intro it hit
    have := (List.countP_eq_zero.mp hc0) it hit
    simpa using this
  have hslot : ∀ it ∈ s, ∃ j, j < data.num_items.toNat ∧ it.img_idx = (j : Int) ∧
      it.dist = dist_of data input fptr j := by
    intro it hit
    rcases hslots it hit with h | h
    · exact absurd h (hfilled it hit)
    · exact h
  refine ⟨s, hs, hlen, ?_, ?_, ?_⟩
  · intro it hit
    obtain ⟨j, hj, hidx, hd⟩ := hslot it hit
    refine ⟨by omega, by omega, ?_⟩
    rw [hd, hidx]; rfl
  · rw [List.Nodup, List.pairwise_map]
    apply hpair.imp_of_mem
    intro a b ha hb hab
    rcases hab with h | h | h
    · exact absurd h (hfilled a ha)
    · exact absurd h (hfilled b hb)
    · exact h
  · intro j hj hnot it hit
    have hlt := hcov j (by omega) (by
      intro x hx
      right
      intro e
      exact hnot (List.mem_map.mpr ⟨x, hx, e⟩)) it hit
    obtain ⟨q, hq⟩ := dist_of_fin data input fptr hfin2 j (by omega)
    obtain ⟨j2, hj2, _, hd2⟩ := hslot it hit
    obtain ⟨r, hr⟩ := dist_of_fin data input fptr hfin2 j2 (by omega)
    refine ⟨q, r, hq, by rw [hd2, hr], ?_⟩
    rw [hq, hd2, hr] at hlt
    simpa [Dbl.lt] using hlt

theorem sample_sq_distance (img : Image) (h : img ∈ sample_training.images) :
    ∃ q, sq_distance img (pixel_image 0) = Dbl.fin q ∧ 0 ≤ q := by
  simp only [sample_training, List.mem_cons, List.mem_singleton, List.not_mem_nil, or_false] at h
  rcases h with rfl | rfl | rfl
  · exact ⟨_, rfl, by decide⟩
  · exact ⟨_, rfl, by decide⟩
  · exact ⟨_, rfl, by decide⟩

/-- Witness of C1: the sample training set, the query pixel 0, the squared
Euclidean distance and `K = 2`. -/
theorem knn_selects_closest_witness :
    ∃ smallest, knn_scan (fun _ => 0) sample_training (pixel_image 0) 2 sq_distance
        sample_training.num_items.toNat = some smallest ∧
      smallest.length = (2 : Int).toNat ∧
      (∀ it ∈ smallest, 0 ≤ it.img_idx ∧ it.img_idx < sample_training.num_items ∧
        it.dist = dist_of sample_training (pixel_image 0) sq_distance it.img_idx.toNat) ∧
      (smallest.map Knn_item.img_idx).Nodup ∧
      (∀ j : Nat, (j : Int) < sample_training.num_items →
        (j : Int) ∉ smallest.map Knn_item.img_idx →
        ∀ it ∈ smallest, ∃ q r, dist_of sample_training (pixel_image 0) sq_distance j = Dbl.fin q ∧
          it.dist = Dbl.fin r ∧ r ≤ q) :=
  knn_selects_closest (fun _ => 0) sample_training (pixel_image 0) 2 sq_distance
    (by decide) (by decide) (by decide) sample_sq_distance

/-! ## The vote of `knn_predict` -/

theorem slot_tally_cons (data : Dataset) (it : Knn_item) (rest : List Knn_item) (l : Nat) :
    slot_tally data (it :: rest) l = slot_tally data rest l +
      (if (decide (0 ≤ it.img_idx) &&
        ((data.labels[it.img_idx.toNat]?).map Fin.val == some l)) = true then 1 else 0) := by
  simp only [slot_tally, List.countP_cons]

theorem tally_loop_spec (data : Dataset) (s : List Knn_item) :
    ∀ counts : Nat → Nat,
      (∀ it ∈ s, 0 ≤ it.img_idx ∧ ∃ l, data.labels[it.img_idx.toNat]? = some l ∧ l.val < 10) →
      tally_loop data s counts = some (fun x => counts x + slot_tally data s x) := by
  induction s with
  | nil => intro counts _; simp [tally_loop, slot_tally]
  | cons it rest ih =>
    intro counts h
    obtain ⟨h0, l, hl, hl10⟩ := h it (List.mem_cons_self _ _)
    simp only [tally_loop, h0, if_true, hl, hl10]
    rw [ih _ (fun x hx => h x (List.mem_cons_of_mem _ hx))]
    congr 1
    funext x
    rw [slot_tally_cons]
    simp only [h0, decide_True, Bool.true_and, hl, Option.map_some', beq_iff_eq,
      Option.some.injEq]
    by_cases hx : x = l.val
    · subst hx; simp; omega
    · have : ¬ (l.val = x) := fun e => hx e.symm
      simp [hx, this]

theorem most_frequent_fold (counts : Nat → Nat) (n : Nat) :
    ((List.range n).foldl
        (fun (st : Nat × Nat) i => if counts i > st.1 then (counts i, i) else st) (0, 1)
      = (0, 1) ∧ ∀ l, l < n → counts l = 0) ∨
    (∃ L, L < n ∧ (List.range n).foldl
        (fun (st : Nat × Nat) i => if counts i > st.1 then (counts i, i) else st) (0, 1)
      = (counts L, L) ∧ 0 < counts L ∧ (∀ l, l < n → counts l ≤ counts L) ∧
      ∀ l, l < L → counts l < counts L) := by
  induction n with
  | zero => left; simp
  | succ n ih =>
    rw [List.range_succ, List.foldl_append]
    rcases ih with ⟨h1, h2⟩ | ⟨L, hL, h1, h2, h3, h4⟩
    · rw [h1]
      by_cases hn : counts n > 0
      · right
        refine ⟨n, by omega, by simp [hn], hn, ?_, ?_⟩
        · intro l hl
          by_cases hln : l = n
          · subst hln; exact le_refl _
          · rw [h2 l (by omega)]; omega
        · intro l hl
          rw [h2 l hl]; exact hn
      · left
        refine ⟨by simp [hn], ?_⟩
        intro l hl
        by_cases hln : l = n
        · subst hln; omega
        · exact h2 l (by omega)
    · rw [h1]
      right
      by_cases hn : counts n > counts L
      · refine ⟨n, by omega, by simp [hn], by omega, ?_, ?_⟩
        · intro l hl
          by_cases hln : l = n
          · subst hln; exact le_refl _
          · have := h3 l (by omega); omega
        · intro l hl
          have := h3 l hl; omega
      · refine ⟨L, by omega, by simp [hn], h2, ?_, h4⟩
        intro l hl
        by_cases hln : l = n
        · subst hln; omega
        · exact h3 l (by omega)

theorem most_frequent_spec (counts : Nat → Nat) (x : Nat) (hx : x < 10) (hpos : 0 < counts x) :
    most_frequent counts < 10 ∧
    (∀ l, l < 10 → counts l ≤ counts (most_frequent counts)) ∧
    ∀ l, l < most_frequent counts → counts l < counts (most_frequent counts) := by
  unfold most_frequent
  rcases most_frequent_fold counts 10 with ⟨_, h2⟩ | ⟨L, hL, h1, _, h3, h4⟩
  · have := h2 x hx; omega
  · rw [h1]
    exact ⟨hL, h3, h4⟩

/-- C2: for a training set of `N` items with labels in `0..9`, `1 ≤ K ≤ N` and
finite distances, `knn_predict` returns a label `L` in `0..9` whose tally (the
number of candidate slots whose training item has label `L`) is at least the
tally of every label, and every label smaller than `L` has a strictly smaller
tally. -/
theorem knn_vote (garbage : Nat → Int) (data : Dataset) (input : Image) (K : Int)
    (fptr : Image → Image → Dbl) (hwf : (data.images.length : Int) = data.num_items)
    (hwfl : (data.labels.length : Int) = data.num_items)
    (hlab : ∀ l ∈ data.labels, l.val < 10)
    (hK1 : 1 ≤ K) (hKN : K ≤ data.num_items)
    (hfin : ∀ img ∈ data.images, ∃ q, fptr img input = Dbl.fin q) :
    ∃ smallest L, knn_scan garbage data input K fptr data.num_items.toNat = some smallest ∧
      knn_predict garbage data input K fptr = some L ∧ L < 10 ∧
      (∀ l, slot_tally data smallest l ≤ slot_tally data smallest L) ∧
      (∀ l, l < L → slot_tally data smallest l < slot_tally data smallest L) := by
  obtain ⟨s, hs, hlen, hslots, hcount⟩ :=
    scan_fill garbage data input K fptr hK1 hfin data.num_items.toNat (by omega)
  have hc0 : s.countP (fun it => decide (it.dist = Dbl.pinf)) = 0 := by omega
  have hslot : ∀ it ∈ s, 0 ≤ it.img_idx ∧
      ∃ l, data.labels[it.img_idx.toNat]? = some l ∧ l.val < 10 := by
    intro it hit
    have hne : it.dist ≠ Dbl.pinf := by
      have := (List.countP_eq_zero.mp hc0) it hit
      simpa using this
    rcases hslots it hit with h | ⟨j, hj, hidx, _⟩
    · exact absurd h hne
    · have hjl : j < data.labels.length := by omega
      refine ⟨by omega, data.labels[j], ?_, hlab _ (List.getElem_mem hjl)⟩
      rw [hidx]
      exact List.getElem?_eq_getElem hjl
  have htally := tally_loop_spec data s (fun _ => 0) hslot
  have hpred : knn_predict garbage data input K fptr
      = some (most_frequent (fun x => 0 + slot_tally data s x)) := by
    simp only [knn_predict, hs, htally]
  have hfun : (fun x => 0 + slot_tally data s x) = slot_tally data s := by
    funext x; omega
  rw [hfun] at hpred
  have hpos : 0 < s.length := by omega
  obtain ⟨h0, l0, hl0, hl10⟩ := hslot _ (List.get_mem s 0 hpos)
  have hvote : 0 < slot_tally data s l0.val := by
    unfold slot_tally
    rw [List.countP_pos_iff]
    refine ⟨_, List.get_mem s 0 hpos, ?_⟩
    show (decide (0 ≤ (s.get ⟨0, hpos⟩).img_idx) &&
      ((data.labels[(s.get ⟨0, hpos⟩).img_idx.toNat]?).map Fin.val == some l0.val)) = true
    rw [hl0]
    simp only [Option.map_some', beq_self_eq_true, Bool.and_true, decide_eq_true_eq]
    exact h0
  obtain ⟨m1, m2, m3⟩ := most_frequent_spec (slot_tally data s) l0.val hl10 hvote
  refine ⟨s, _, hs, hpred, m1, ?_, m3⟩
  intro l
  by_cases hl : l < 10
  · exact m2 l hl
  · have : slot_tally data s l = 0 := by
      unfold slot_tally
      rw [List.countP_eq_zero]
      intro it hit
      obtain ⟨h0, l1, hl1, hl110⟩ := hslot it hit
      simp only [hl1, Option.map_some', Bool.and_eq_true, decide_eq_true_eq, beq_iff_eq,
        Option.some.injEq, not_and]
      intro _ e
      omega
    omega

theorem tie_training_labels (l : Byte) (h : l ∈ tie_training.labels) : l.val < 10 := by
  simp only [tie_training, List.mem_cons, List.mem_singleton, List.not_mem_nil, or_false] at h
  rcases h with rfl | rfl <;> decide

theorem tie_training_finite (img : Image) (h : img ∈ tie_training.images) :
    ∃ q, sq_distance img (pixel_image 0) = Dbl.fin q := by
  simp only [tie_training, List.mem_cons, List.mem_singleton, List.not_mem_nil, or_false] at h
  rcases h with rfl | rfl
  · exact ⟨_, rfl⟩
  · exact ⟨_, rfl⟩

/-- Witness of C2: `K = 2` with neighbour labels `[7, 3]`, each counted once,
returns 3. -/
theorem knn_vote_witness :
    knn_predict (fun _ => 0) tie_training (pixel_image 0) 2 sq_distance = some 3 ∧
    ∃ smallest L, knn_scan (fun _ => 0) tie_training (pixel_image 0) 2 sq_distance
        tie_training.num_items.toNat = some smallest ∧
      knn_predict (fun _ => 0) tie_training (pixel_image 0) 2 sq_distance = some L ∧ L < 10 ∧
      (∀ l, slot_tally tie_training smallest l ≤ slot_tally tie_training smallest L) ∧
      (∀ l, l < L → slot_tally tie_training smallest l < slot_tally tie_training smallest L) :=
  ⟨by decide,
   knn_vote (fun _ => 0) tie_training (pixel_image 0) 2 sq_distance (by decide) (by decide)
    tie_training_labels (by decide) (by decide) tie_training_finite⟩

/-- C6, evaluation at the failing input: the training set of two items with
labels 7 and 3, finite distances 0 and 4, and `K = 3 > N`.  After the scan the
third slot is still at `INFINITY` and its `img_idx` was never written.  With
that storage holding 0 the tally counts item 0 twice and `knn_predict` returns
7, although label 3 is the smallest of the two labels that are tied over the
two training items; with that storage holding 5 the tally reads `labels`
outside the array. -/
theorem knn_predict_unfilled_slot :
    knn_scan (fun _ => 0) tie_training (pixel_image 0) 3 sq_distance 2
      = some [⟨Dbl.fin 0, 0⟩, ⟨Dbl.fin 4, 1⟩, ⟨Dbl.pinf, 0⟩] ∧
    knn_predict (fun _ => 0) tie_training (pixel_image 0) 3 sq_distance = some 7 ∧
    knn_predict (fun _ => 5) tie_training (pixel_image 0) 3 sq_distance = none := by
  decide

/-! ## The uninitialised storage does not matter when every slot is filled -/

theorem find_max_same (s t : List Knn_item) (h : List.Forall₂ same_slot s t) :
    ∀ (j : Nat) (st : Dbl × Nat), find_max s j st = find_max t j st := by
  induction h with
  | nil => intro j st; rfl
  | cons hab _ ih =>
    intro j st
    simp only [find_max, hab.1]
    split
    · exact ih _ _
    · exact ih _ _

theorem set_same (s t : List Knn_item) (h : List.Forall₂ same_slot s t) (a : Knn_item) :
    ∀ k : Nat, List.Forall₂ same_slot (s.set k a) (t.set k a) := by
  induction h with
  | nil => intro k; exact List.Forall₂.nil
  | cons hab hrest ih =>
    intro k
    cases k with
    | zero => exact List.Forall₂.cons ⟨rfl, fun _ => rfl⟩ hrest
    | succ k => exact List.Forall₂.cons hab (ih k)

theorem scan_step_same (s t : List Knn_item) (h : List.Forall₂ same_slot s t) (i : Nat)
    (dist : Dbl) :
    (scan_step s i dist = none ∧ scan_step t i dist = none) ∨
    ∃ s2 t2, scan_step s i dist = some s2 ∧ scan_step t i dist = some t2 ∧
      List.Forall₂ same_slot s2 t2 := by
  unfold scan_step
  simp only [find_max_same s t h, h.length_eq]
  by_cases hlt : Dbl.lt dist (find_max t 0 (Dbl.fin (-1), 0)).1 = true
  · simp only [hlt, if_true]
    by_cases hin : (find_max t 0 (Dbl.fin (-1), 0)).2 < t.length
    · simp only [hin, if_true]
      exact Or.inr ⟨_, _, rfl, rfl, set_same s t h _ _⟩
    · simp only [hin, if_false]
      exact Or.inl ⟨trivial, trivial⟩
  · simp only [hlt, if_false]
    exact Or.inr ⟨_, _, rfl, rfl, h⟩

theorem init_smallest_same (garbage garbage2 : Nat → Int) (K : Nat) :
    List.Forall₂ same_slot (init_smallest garbage K) (init_smallest garbage2 K) := by
  unfold init_smallest
  rw [List.forall₂_map_left_iff, List.forall₂_map_right_iff, List.forall₂_same]
  intro j _
  exact ⟨rfl, fun hne => absurd rfl hne⟩

theorem knn_scan_same (garbage garbage2 : Nat → Int) (data : Dataset) (input : Image) (K : Int)
    (fptr : Image → Image → Dbl) (i : Nat) :
    (knn_scan garbage data input K fptr i = none ∧
      knn_scan garbage2 data input K fptr i = none) ∨
    ∃ s t, knn_scan garbage data input K fptr i = some s ∧
      knn_scan garbage2 data input K fptr i = some t ∧ List.Forall₂ same_slot s t := by
  induction i with
  | zero =>
    by_cases hK : K < 0
    · left
      simp only [knn_scan, hK, if_true, and_self]
    · right
      exact ⟨_, _, by simp only [knn_scan, hK, if_false], by simp only [knn_scan, hK, if_false],
        init_smallest_same garbage garbage2 K.toNat⟩
  | succ i ih =>
    rcases ih with ⟨h1, h2⟩ | ⟨s, t, h1, h2, hst⟩
    · left
      simp only [knn_scan, h1, h2, and_self]
    · cases himg : data.images[i]? with
      | none =>
        left
        simp only [knn_scan, h1, h2, himg, and_self]
      | some img =>
        simp only [knn_scan, h1, h2, himg]
        exact scan_step_same s t hst i (fptr img input)

theorem eq_of_same_filled (s t : List Knn_item) (h : List.Forall₂ same_slot s t) :
    (∀ it ∈ s, it.dist ≠ Dbl.pinf) → s = t := by
  induction h with
  | nil => intro _; rfl
  | @cons a b _ _ hab _ ih =>
    intro hf
    have hd := hab.1
    have hi := hab.2 (hf a (List.mem_cons_self _ _))
    have : a = b := by
      cases a; cases b
      simp only at hd hi
      rw [hd, hi]
    rw [this, ih (fun it hit => hf it (List.mem_cons_of_mem _ hit))]

/-- For `1 ≤ K ≤ N` and finite distances every slot is filled, and the result of
`knn_predict` does not depend on what the uninitialised storage held. -/
theorem knn_predict_residue (garbage garbage2 : Nat → Int) (data : Dataset) (input : Image)
    (K : Int) (fptr : Image → Image → Dbl)
    (hwf : (data.images.length : Int) = data.num_items)
    (hK1 : 1 ≤ K) (hKN : K ≤ data.num_items)
    (hfin : ∀ img ∈ data.images, ∃ q, fptr img input = Dbl.fin q) :
    knn_predict garbage data input K fptr = knn_predict garbage2 data input K fptr := by
  obtain ⟨s, hs, _, _, hcount⟩ :=
    scan_fill garbage data input K fptr hK1 hfin data.num_items.toNat (by omega)
  have hc0 : s.countP (fun it => decide (it.dist = Dbl.pinf)) = 0 := by omega
  have hfilled : ∀ it ∈ s, it.dist ≠ Dbl.pinf := by
    intro it hit
    have := (List.countP_eq_zero.mp hc0) it hit
    simpa using this
  have hscan : knn_scan garbage2 data input K fptr data.num_items.toNat = some s := by
    rcases knn_scan_same garbage garbage2 data input K fptr data.num_items.toNat with
      ⟨h1, _⟩ | ⟨s2, t, h1, h2, hst⟩
    · rw [hs] at h1; cases h1
    · rw [hs] at h1
      cases h1
      rw [h2, eq_of_same_filled s t hst hfilled]
  simp only [knn_predict, hs, hscan]

theorem child_loop_residue (garbage garbage2 : Nat → Nat → Int) (training testing : Dataset)
    (K : Int) (fptr : Image → Image → Dbl) (stop : Int)
    (h : ∀ (j : Nat) (img : Image), testing.images[j]? = some img →
      knn_predict (garbage j) training img K fptr
        = knn_predict (garbage2 j) training img K fptr) (fuel : Nat) :
    ∀ (i : Int) (c : Nat),
      child_loop garbage training testing K fptr stop fuel i c
        = child_loop garbage2 training testing K fptr stop fuel i c := by
  induction fuel with
  | zero => intro i c; rfl
  | succ n ih =>
    intro i c
    simp only [child_loop]
    split
    · split
      · cases himg : testing.images[i.toNat]? with
        | none => rfl
        | some img =>
          cases hl : testing.labels[i.toNat]? with
          | none => rfl
          | some l =>
            simp only [h i.toNat img himg]
            cases knn_predict (garbage2 i.toNat) training img K fptr with
            | none => rfl
            | some p => exact ih _ _
      · rfl
    · rfl

/-- Where every slot is filled (`1 ≤ K ≤ N` for the training set and finite
distances), the sum of the counts of the `P` ranges equals the count of the
range `(0, T)` of a one-worker run, whatever the uninitialised storage holds in
the calls of either run. -/
theorem aggregate_filled_slots (garbage garbage2 : Nat → Nat → Int) (training testing : Dataset)
    (K : Int) (fptr : Image → Image → Dbl) (P : Int)
    (hwf : (training.images.length : Int) = training.num_items)
    (hK1 : 1 ≤ K) (hKN : K ≤ training.num_items)
    (hfin : ∀ input ∈ testing.images, ∀ img ∈ training.images, ∃ q, fptr img input = Dbl.fin q)
    (hT : 0 ≤ testing.num_items) (hP : 1 ≤ P) :
    collect ((main_ranges testing.num_items P).map
        (fun r => child_handler garbage training testing K fptr r.1 r.2)) 0
      = collect ((main_ranges testing.num_items 1).map
        (fun r => child_handler garbage2 training testing K fptr r.1 r.2)) 0 := by
  rw [(collect_ranges garbage training testing K fptr P hT hP).2, main_ranges_one _ hT]
  simp only [List.map_cons, List.map_nil, collect_single, Nat.zero_add]
  unfold child_handler
  rw [child_loop_residue garbage garbage2 training testing K fptr _ (fun j img himg =>
    knn_predict_residue (garbage j) (garbage2 j) training img K fptr hwf hK1 hKN
      (hfin img (List.getElem?_mem himg)))]
  cases child_loop garbage2 training testing K fptr (0 + testing.num_items)
    testing.num_items.toNat 0 0 <;> rfl

/-! ## The order of the training items -/

theorem tally_loop_labels (data : Dataset) (g : Knn_item → Byte) (s : List Knn_item) :
    ∀ counts : Nat → Nat,
      (∀ it ∈ s, 0 ≤ it.img_idx ∧ data.labels[it.img_idx.toNat]? = some (g it)) →
      tally_loop data s counts = tally_list (s.map (fun it => (g it).val)) counts := by
  induction s with
  | nil => intro counts _; rfl
  | cons it rest ih =>
    intro counts h
    obtain ⟨h0, hl⟩ := h it (List.mem_cons_self _ _)
    simp only [tally_loop, h0, if_true, hl, List.map_cons, tally_list]
    split
    · exact ih _ (fun x hx => h x (List.mem_cons_of_mem _ hx))
    · rfl

theorem tally_list_perm (l1 l2 : List Nat) (h : l1.Perm l2) :
    ∀ counts : Nat → Nat, tally_list l1 counts = tally_list l2 counts := by
  induction h with
  | nil => intro counts; rfl
  | cons a _ ih =>
    intro counts
    simp only [tally_list]
    split
    · exact ih _
    · rfl
  | swap a b l =>
    intro counts
    simp only [tally_list]
    by_cases ha : a < 10 <;> by_cases hb : b < 10 <;> simp only [ha, hb, if_true, if_false]
    congr 1
    funext x
    by_cases hxa : x = a <;> by_cases hxb : x = b <;> simp only [hxa, hxb, if_true, if_false] <;>
      split <;> omega
  | trans _ _ ih1 ih2 =>
    intro counts
    rw [ih1, ih2]

theorem tally_list_some (ls : List Nat) (h : ∀ l ∈ ls, l < 10) :
    ∀ counts : Nat → Nat, ∃ c, tally_list ls counts = some c := by
  induction ls with
  | nil => intro counts; exact ⟨counts, rfl⟩
  | cons a rest ih =>
    intro counts
    have ha : a < 10 := h a (List.mem_cons_self _ _)
    simp only [tally_list, ha, if_true]
    exact ih (fun l hl => h l (List.mem_cons_of_mem _ hl)) _

theorem Dbl.lt_of_ne_of_ge (a b : Dbl) (ha : ∃ q, a = Dbl.fin q) (hb : ∃ q, b = Dbl.fin q)
    (hne : a ≠ b) (h : Dbl.lt a b = false) : Dbl.lt b a = true := by
  obtain ⟨q, rfl⟩ := ha
  obtain ⟨r, rfl⟩ := hb
  simp only [Dbl.lt, decide_eq_false_iff_not, not_lt, decide_eq_true_eq] at h ⊢
  have : q ≠ r := fun e => hne (by rw [e])
  exact lt_of_le_of_ne h (Ne.symm this)

theorem dataset_of_dist (items : List (Byte × Image)) (input : Image)
    (fptr : Image → Image → Dbl) (j : Nat) (hj : j < items.length) :
    dist_of (dataset_of items) input fptr j = fptr (items.get ⟨j, hj⟩).2 input := by
  apply dist_of_eq
  simp only [dataset_of, List.getElem?_map, List.getElem?_eq_getElem hj, Option.map_some',
    List.get_eq_getElem]

theorem range_map_item_at (items : List (Byte × Image)) (input : Image) :
    (List.range items.length).map (item_at items input) = items := by
  apply List.ext_getElem
  · simp
  · intro n h1 h2
    simp only [List.getElem_map, List.getElem_range, item_at]
    exact List.getD_eq_getElem _ _ h2

theorem countP_items (items : List (Byte × Image)) (input : Image) (Q : Byte × Image → Bool) :
    items.countP Q = (List.range items.length).countP (fun j => Q (item_at items input j)) := by
  conv_lhs => rw [← range_map_item_at items input]
  rw [List.countP_map]
  rfl

theorem countP_split {α : Type} (p q : α → Bool) (l : List α) :
    l.countP p = l.countP (fun x => p x && q x) + l.countP (fun x => p x && !q x) := by
  induction l with
  | nil => rfl
  | cons a rest ih =>
    simp only [List.countP_cons, ih]
    cases p a <;> cases q a <;> simp <;> omega

theorem countP_nodup_le {α : Type} [DecidableEq α] (p : α → Bool) (l1 l2 : List α)
    (hnd : l1.Nodup) (hsub : ∀ x ∈ l1, x ∈ l2 ∧ p x = true) : l1.length ≤ l2.countP p := by
  rw [List.countP_eq_length_filter]
  apply (List.subperm_of_subset hnd _).length_le
  intro x hx
  rw [List.mem_filter]
  exact hsub x hx

theorem countP_nodup_eq {α : Type} [DecidableEq α] (p : α → Bool) (l1 l2 : List α)
    (h1 : l1.Nodup) (h2 : l2.Nodup) (hmem : ∀ x, (x ∈ l1 ∧ p x = true) ↔ (x ∈ l2 ∧ p x = true)) :
    l1.countP p = l2.countP p := by
  rw [List.countP_eq_length_filter, List.countP_eq_length_filter]
  apply List.Perm.length_eq
  rw [List.perm_ext_iff_of_nodup (h1.filter _) (h2.filter _)]
  intro x
  rw [List.mem_filter, List.mem_filter]
  exact hmem x

theorem item_at_get (items : List (Byte × Image)) (input : Image) (j : Nat)
    (hj : j < items.length) : item_at items input j = items.get ⟨j, hj⟩ := by
  simp only [item_at, List.getD_eq_getElem _ _ hj, List.get_eq_getElem]

theorem item_at_mem (items : List (Byte × Image)) (input : Image) (j : Nat)
    (hj : j < items.length) : item_at items input j ∈ items := by
  rw [item_at_get items input j hj]
  exact List.get_mem items j hj

/-- The slots after the scan of a training set with finite non-negative
distances, for `1 ≤ K ≤ N`, by the indices they hold: `K` different indices
below `N`, and an index that no slot holds is not closer than any that a slot
holds. -/
theorem scan_indices (garbage : Nat → Int) (items : List (Byte × Image)) (input : Image)
    (K : Int) (fptr : Image → Image → Dbl) (hK1 : 1 ≤ K) (hKN : K ≤ (items.length : Int))
    (hfin : ∀ x ∈ items, ∃ q, fptr x.2 input = Dbl.fin q ∧ 0 ≤ q) :
    ∃ s, knn_scan garbage (dataset_of items) input K fptr items.length = some s ∧
      s.length = K.toNat ∧
      (∀ it ∈ s, 0 ≤ it.img_idx ∧ it.img_idx.toNat < items.length ∧
        (dataset_of items).labels[it.img_idx.toNat]?
          = some (item_at items input it.img_idx.toNat).1) ∧
      (s.map (fun it => it.img_idx.toNat)).Nodup ∧
      ∀ j, j < items.length → j ∉ s.map (fun it => it.img_idx.toNat) →
        ∀ m ∈ s.map (fun it => it.img_idx.toNat),
          Dbl.lt (fptr (item_at items input j).2 input)
            (fptr (item_at items input m).2 input) = false := by
  have hfinD : ∀ img ∈ (dataset_of items).images, ∃ q, fptr img input = Dbl.fin q ∧ 0 ≤ q := by
    intro img himg
    simp only [dataset_of, List.mem_map] at himg
    obtain ⟨x, hx, rfl⟩ := himg
    exact hfin x hx
  have hfinD2 : ∀ img ∈ (dataset_of items).images, ∃ q, fptr img input = Dbl.fin q := by
    intro img himg
    obtain ⟨q, hq, _⟩ := hfinD img himg
    exact ⟨q, hq⟩
  have hlenD : (dataset_of items).images.length = items.length := by simp [dataset_of]
  obtain ⟨s, hs, hlen, hslots, hcount⟩ :=
    scan_fill garbage (dataset_of items) input K fptr hK1 hfinD2 items.length (by omega)
  obtain ⟨s2, hs2, hpair, hcov⟩ :=
    scan_sel garbage (dataset_of items) input K fptr hK1 hfinD items.length (by omega)
  rw [hs] at hs2
  cases hs2
  have hc0 : s.countP (fun it => decide (it.dist = Dbl.pinf)) = 0 := by omega
  have hfilled : ∀ it ∈ s, it.dist ≠ Dbl.pinf := by
    intro it hit
    have := (List.countP_eq_zero.mp hc0) it hit
    simpa using this
  have hd : ∀ j, j < items.length →
      dist_of (dataset_of items) input fptr j = fptr (item_at items input j).2 input := by
    intro j hj
    rw [dataset_of_dist items input fptr j hj, item_at_get items input j hj]
  have hslot : ∀ it ∈ s, ∃ j, j < items.length ∧ it.img_idx = (j : Int) ∧
      it.dist = fptr (item_at items input j).2 input := by
    intro it hit
    rcases hslots it hit with h | ⟨j, hj, hidx, hdj⟩
    · exact absurd h (hfilled it hit)
    · exact ⟨j, hj, hidx, by rw [hdj, hd j hj]⟩
  refine ⟨s, hs, hlen, ?_, ?_, ?_⟩
  · intro it hit
    obtain ⟨j, hj, hidx, _⟩ := hslot it hit
    refine ⟨by omega, by rw [hidx, Int.toNat_ofNat]; exact hj, ?_⟩
    rw [hidx, Int.toNat_ofNat, item_at_get items input j hj]
    simp only [dataset_of, List.getElem?_map, List.getElem?_eq_getElem hj, Option.map_some',
      List.get_eq_getElem]
  · rw [List.Nodup, List.pairwise_map]
    apply hpair.imp_of_mem
    intro a b ha hb hab
    obtain ⟨ja, _, hia, _⟩ := hslot a ha
    obtain ⟨jb, _, hib, _⟩ := hslot b hb
    rcases hab with h | h | h
    · exact absurd h (hfilled a ha)
    · exact absurd h (hfilled b hb)
    · rw [hia, hib, Int.toNat_ofNat, Int.toNat_ofNat]
      intro e
      exact h (by rw [hia, hib, e])
  · intro j hj hnot m hm
    rw [List.mem_map] at hm
    obtain ⟨it, hit, rfl⟩ := hm
    obtain ⟨jm, hjm, hidx, hdm⟩ := hslot it hit
    have := hcov j hj (by
      intro it2 hit2
      right
      intro e
      apply hnot
      rw [List.mem_map]
      exact ⟨it2, hit2, by rw [e, Int.toNat_ofNat]⟩) it hit
    rw [hd j hj, hdm] at this
    rw [hidx, Int.toNat_ofNat]
    exact this

theorem Dbl.lt_of_not_lt_of_lt (x y z : Dbl) (hx : ∃ q, x = Dbl.fin q) (hy : ∃ q, y = Dbl.fin q)
    (hz : ∃ q, z = Dbl.fin q) (hxz : Dbl.lt x z = false) (hxy : Dbl.lt x y = true) :
    Dbl.lt z y = true := by
  obtain ⟨a, rfl⟩ := hx
  obtain ⟨b, rfl⟩ := hy
  obtain ⟨c, rfl⟩ := hz
  simp only [Dbl.lt, decide_eq_false_iff_not, not_lt, decide_eq_true_eq] at hxz hxy ⊢
  linarith

theorem Dbl.eq_of_not_lt (x y : Dbl) (hx : ∃ q, x = Dbl.fin q) (hy : ∃ q, y = Dbl.fin q)
    (h1 : Dbl.lt x y = false) (h2 : Dbl.lt y x = false) : x = y := by
  obtain ⟨a, rfl⟩ := hx
  obtain ⟨b, rfl⟩ := hy
  simp only [Dbl.lt, decide_eq_false_iff_not, not_lt] at h1 h2
  rw [le_antisymm h2 h1]

theorem not_farther_le_closer (fptr : Image → Image → Dbl) (input : Image)
    (items : List (Byte × Image)) (hfin : ∀ x ∈ items, ∃ q, fptr x.2 input = Dbl.fin q)
    (x y : Byte × Image) (hx : x ∈ items) (hy : y ∈ items)
    (h : Dbl.lt (fptr x.2 input) (fptr y.2 input) = true) :
    not_farther fptr input items x ≤ closer fptr input items y := by
  unfold not_farther closer
  apply List.countP_mono_left
  intro z hz hzx
  have hzx2 : Dbl.lt (fptr x.2 input) (fptr z.2 input) = false := by simpa using hzx
  exact Dbl.lt_of_not_lt_of_lt _ _ _ (hfin x hx) (hfin y hy) (hfin z hz) hzx2 h

/-- Two items that are both among those tied at the distance where the `K`
nearest end are at the same distance. -/
theorem boundary_same_distance (fptr : Image → Image → Dbl) (input : Image)
    (items : List (Byte × Image)) (hfin : ∀ x ∈ items, ∃ q, fptr x.2 input = Dbl.fin q)
    (K : Nat) (x y : Byte × Image) (hx : x ∈ items) (hy : y ∈ items)
    (hx1 : closer fptr input items x < K) (hx2 : K < not_farther fptr input items x)
    (hy1 : closer fptr input items y < K) (hy2 : K < not_farther fptr input items y) :
    fptr x.2 input = fptr y.2 input := by
  apply Dbl.eq_of_not_lt _ _ (hfin x hx) (hfin y hy)
  · cases h : Dbl.lt (fptr x.2 input) (fptr y.2 input) with
    | false => rfl
    | true =>
      have := not_farther_le_closer fptr input items hfin x y hx hy h
      omega
  · cases h : Dbl.lt (fptr y.2 input) (fptr x.2 input) with
    | false => rfl
    | true =>
      have := not_farther_le_closer fptr input items hfin y x hy hx h
      omega

/-- The votes of the slots, counted from the indices that the slots hold, are
the votes among the `K` nearest items, when the items tied at the distance
where the `K` nearest end that cannot all be among them carry one label. -/
theorem nearest_count (fptr : Image → Image → Dbl) (input : Image)
    (items : List (Byte × Image)) (K : Nat) (idxs : List Nat)
    (hfin : ∀ x ∈ items, ∃ q, fptr x.2 input = Dbl.fin q)
    (hlen : idxs.length = K) (hnd : idxs.Nodup) (hlt : ∀ j ∈ idxs, j < items.length)
    (hcov : ∀ j, j < items.length → j ∉ idxs → ∀ m ∈ idxs,
      Dbl.lt (fptr (item_at items input j).2 input) (fptr (item_at items input m).2 input) = false)
    (htie : ∀ x ∈ items, ∀ y ∈ items, fptr x.2 input = fptr y.2 input →
      closer fptr input items x < K → K < not_farther fptr input items x → x.1 = y.1)
    (l : Nat) :
    (idxs.map (fun j => (item_at items input j).1.val)).count l
      = nearest_tally fptr input items K l := by
  -- an item with at most K items not farther is held by a slot
  have hA : ∀ j, j < items.length →
      not_farther fptr input items (item_at items input j) ≤ K → j ∈ idxs := by
    intro j hj hnf
    by_contra hnot
    have hle := countP_nodup_le
      (fun m => !Dbl.lt (fptr (item_at items input j).2 input)
        (fptr (item_at items input m).2 input))
      (j :: idxs) (List.range items.length) (List.nodup_cons.mpr ⟨hnot, hnd⟩) (by
        intro m hm
        rcases List.mem_cons.mp hm with rfl | hm
        · exact ⟨List.mem_range.mpr hj, by simp only [Dbl.lt_irrefl, Bool.not_false]⟩
        · refine ⟨List.mem_range.mpr (hlt m hm), ?_⟩
          simp only [hcov j hj hnot m hm, Bool.not_false])
    rw [← countP_items items input
      (fun y => !Dbl.lt (fptr (item_at items input j).2 input) (fptr y.2 input))] at hle
    rw [List.length_cons, hlen] at hle
    unfold not_farther at hnf
    omega
  -- an item held by a slot has fewer than K items closer
  have hB : ∀ j ∈ idxs, closer fptr input items (item_at items input j) < K := by
    intro j hj
    have hjl := hlt j hj
    have hsub : (j :: (List.range items.length).filter (fun m =>
        Dbl.lt (fptr (item_at items input m).2 input) (fptr (item_at items input j).2 input)))
        ⊆ idxs := by
      intro m hm
      rcases List.mem_cons.mp hm with rfl | hm
      · exact hj
      · rw [List.mem_filter, List.mem_range] at hm
        by_contra hnot
        have := hcov m hm.1 hnot j hj
        rw [this] at hm
        exact absurd hm.2 (by simp)
    have hnd2 : (j :: (List.range items.length).filter (fun m =>
        Dbl.lt (fptr (item_at items input m).2 input)
          (fptr (item_at items input j).2 input))).Nodup := by
      rw [List.nodup_cons]
      refine ⟨?_, (List.nodup_range _).filter _⟩
      intro hin
      rw [List.mem_filter, Dbl.lt_irrefl] at hin
      exact absurd hin.2 (by simp)
    have hle := (List.subperm_of_subset hnd2 hsub).length_le
    rw [List.length_cons, hlen, ← List.countP_eq_length_filter,
      ← countP_items items input
        (fun y => Dbl.lt (fptr y.2 input) (fptr (item_at items input j).2 input))] at hle
    unfold closer
    omega
  -- the slots hold every item with at most K items not farther
  have hinside : ∀ P : Nat → Bool,
      idxs.countP (fun j => P j &&
        decide (not_farther fptr input items (item_at items input j) ≤ K))
      = (List.range items.length).countP (fun j => P j &&
        decide (not_farther fptr input items (item_at items input j) ≤ K)) := by
    intro P
    apply countP_nodup_eq _ _ _ hnd (List.nodup_range _)
    intro j
    constructor
    · rintro ⟨hj, hp⟩
      exact ⟨List.mem_range.mpr (hlt j hj), hp⟩
    · rintro ⟨hj, hp⟩
      refine ⟨hA j (List.mem_range.mp hj) ?_, hp⟩
      simp only [Bool.and_eq_true, decide_eq_true_eq] at hp
      exact hp.2
  have hcountI : idxs.countP (fun j =>
        decide (not_farther fptr input items (item_at items input j) ≤ K))
      = items.countP (fun x => decide (not_farther fptr input items x ≤ K)) := by
    have := hinside (fun _ => true)
    simp only [Bool.true_and] at this
    rw [this, countP_items items input]
  rw [List.count_eq_countP, List.countP_map]
  rw [countP_split _ (fun j => decide (not_farther fptr input items (item_at items input j) ≤ K))]
  unfold nearest_tally
  congr 1
  · have := hinside (fun j => (item_at items input j).1.val == l)
    rw [countP_items items input
      (fun x => (x.1.val == l) && decide (not_farther fptr input items x ≤ K))]
    exact this
  · cases hG : items.any (fun x => decide (closer fptr input items x < K) &&
        decide (K < not_farther fptr input items x) && (x.1.val == l)) with
    | true =>
      simp only [if_true]
      rw [List.any_eq_true] at hG
      obtain ⟨x0, hx0, hx0p⟩ := hG
      simp only [Bool.and_eq_true, decide_eq_true_eq, beq_iff_eq] at hx0p
      obtain ⟨⟨hx01, hx02⟩, hx0l⟩ := hx0p
      have hall : ∀ j ∈ idxs,
          ((((fun x : Nat => x == l) ∘ fun j => (item_at items input j).1.val) j &&
            !decide (not_farther fptr input items (item_at items input j) ≤ K)) = true ↔
          (!decide (not_farther fptr input items (item_at items input j) ≤ K)) = true) := by
        intro j hj
        simp only [Function.comp, Bool.and_eq_true, beq_iff_eq, Bool.not_eq_true',
          decide_eq_false_iff_not, not_le, and_iff_right_iff_imp]
        intro hout
        have hjmem := item_at_mem items input j (hlt j hj)
        have hsame := boundary_same_distance fptr input items hfin K x0 (item_at items input j)
          hx0 hjmem hx01 hx02 (hB j hj) hout
        have := htie x0 hx0 (item_at items input j) hjmem hsame hx01 hx02
        rw [← this, hx0l]
      rw [List.countP_congr hall]
      have hsplit := countP_split (fun _ : Nat => true)
        (fun j => decide (not_farther fptr input items (item_at items input j) ≤ K)) idxs
      simp only [Bool.true_and] at hsplit
      have hl : idxs.countP (fun _ => true) = idxs.length := by
        rw [List.countP_eq_length]; intro _ _; rfl
      rw [hl, hlen, hcountI] at hsplit
      omega
    | false =>
      simp only [Bool.false_eq_true, if_false]
      rw [List.countP_eq_zero]
      intro j hj hp
      simp only [Function.comp, Bool.and_eq_true, beq_iff_eq, Bool.not_eq_true',
        decide_eq_false_iff_not, not_le] at hp
      have hjmem := item_at_mem items input j (hlt j hj)
      have : items.any (fun x => decide (closer fptr input items x < K) &&
          decide (K < not_farther fptr input items x) && (x.1.val == l)) = true := by
        rw [List.any_eq_true]
        refine ⟨item_at items input j, hjmem, ?_⟩
        simp only [Bool.and_eq_true, decide_eq_true_eq, beq_iff_eq]
        exact ⟨⟨hB j hj, hp.2⟩, hp.1⟩
      rw [hG] at this
      cases this

theorem nearest_tally_perm (fptr : Image → Image → Dbl) (input : Image)
    (items items2 : List (Byte × Image)) (h : items.Perm items2) (K l : Nat) :
    nearest_tally fptr input items K l = nearest_tally fptr input items2 K l := by
  have hcl : closer fptr input items = closer fptr input items2 := by
    funext x
    unfold closer
    exact h.countP_eq _
  have hnf : not_farther fptr input items = not_farther fptr input items2 := by
    funext x
    unfold not_farther
    exact h.countP_eq _
  have hany : ∀ p : Byte × Image → Bool, items.any p = items2.any p := by
    intro p
    rw [Bool.eq_iff_iff, List.any_eq_true, List.any_eq_true]
    constructor
    · rintro ⟨x, hx, hp⟩; exact ⟨x, h.mem_iff.mp hx, hp⟩
    · rintro ⟨x, hx, hp⟩; exact ⟨x, h.mem_iff.mpr hx, hp⟩
  unfold nearest_tally
  rw [hcl, hnf, hany, h.countP_eq, h.countP_eq]

theorem predict_of_slots (garbage : Nat → Int) (data : Dataset) (input : Image) (K : Int)
    (fptr : Image → Image → Dbl) (s : List Knn_item)
    (hs : knn_scan garbage data input K fptr data.num_items.toNat = some s)
    (hslot : ∀ it ∈ s, 0 ≤ it.img_idx ∧
      ∃ l, data.labels[it.img_idx.toNat]? = some l ∧ l.val < 10)
    (hpos : 0 < s.length) :
    ∃ L, knn_predict garbage data input K fptr = some L ∧ L < 10 ∧
      (∀ l, slot_tally data s l ≤ slot_tally data s L) ∧
      (∀ l, l < L → slot_tally data s l < slot_tally data s L) := by
  have htally := tally_loop_spec data s (fun _ => 0) hslot
  have hpred : knn_predict garbage data input K fptr
      = some (most_frequent (fun x => 0 + slot_tally data s x)) := by
    simp only [knn_predict, hs, htally]
  have hfun : (fun x => 0 + slot_tally data s x) = slot_tally data s := by
    funext x; omega
  rw [hfun] at hpred
  obtain ⟨h0, l0, hl0, hl10⟩ := hslot _ (List.get_mem s 0 hpos)
  have hvote : 0 < slot_tally data s l0.val := by
    unfold slot_tally
    rw [List.countP_pos_iff]
    refine ⟨_, List.get_mem s 0 hpos, ?_⟩
    show (decide (0 ≤ (s.get ⟨0, hpos⟩).img_idx) &&
      ((data.labels[(s.get ⟨0, hpos⟩).img_idx.toNat]?).map Fin.val == some l0.val)) = true
    rw [hl0]
    simp only [Option.map_some', beq_self_eq_true, Bool.and_true, decide_eq_true_eq]
    exact h0
  obtain ⟨m1, m2, m3⟩ := most_frequent_spec (slot_tally data s) l0.val hl10 hvote
  refine ⟨_, hpred, m1, ?_, m3⟩
  intro l
  by_cases hl : l < 10
  · exact m2 l hl
  · have : slot_tally data s l = 0 := by
      unfold slot_tally
      rw [List.countP_eq_zero]
      intro it hit
      obtain ⟨_, l1, hl1, hl110⟩ := hslot it hit
      simp only [hl1, Option.map_some', Bool.and_eq_true, decide_eq_true_eq, beq_iff_eq,
        Option.some.injEq, not_and]
      intro _ e
      omega
    omega

/-- The result of `knn_predict` is the vote over the labels of the `K` nearest
items, when the items tied at the distance where the `K` nearest end that
cannot all be among them carry one label. -/
theorem knn_predict_eq_tally (garbage : Nat → Int) (items : List (Byte × Image)) (input : Image)
    (K : Int) (fptr : Image → Image → Dbl) (hK1 : 1 ≤ K) (hKN : K ≤ (items.length : Int))
    (hfin : ∀ x ∈ items, ∃ q, fptr x.2 input = Dbl.fin q ∧ 0 ≤ q)
    (htie : ∀ x ∈ items, ∀ y ∈ items, fptr x.2 input = fptr y.2 input →
      closer fptr input items x < K.toNat → K.toNat < not_farther fptr input items x →
      x.1 = y.1) :
    ∃ ls : List Nat, (∀ l, ls.count l = nearest_tally fptr input items K.toNat l) ∧
      knn_predict garbage (dataset_of items) input K fptr
        = (tally_list ls (fun _ => 0)).map most_frequent := by
  obtain ⟨s, hs, hlen, hslot, hnd, hcov⟩ := scan_indices garbage items input K fptr hK1 hKN hfin
  have hfin2 : ∀ x ∈ items, ∃ q, fptr x.2 input = Dbl.fin q := by
    intro x hx
    obtain ⟨q, hq, _⟩ := hfin x hx
    exact ⟨q, hq⟩
  have hN : (dataset_of items).num_items.toNat = items.length := by simp [dataset_of]
  refine ⟨(s.map (fun it => it.img_idx.toNat)).map (fun j => (item_at items input j).1.val),
    ?_, ?_⟩
  · intro l
    apply nearest_count fptr input items K.toNat _ hfin2 (by rw [List.length_map, hlen]) hnd
      _ hcov htie
    intro j hj
    rw [List.mem_map] at hj
    obtain ⟨it, hit, rfl⟩ := hj
    exact (hslot it hit).2.1
  · have htally := tally_loop_labels (dataset_of items)
      (fun it => (item_at items input it.img_idx.toNat).1) s (fun _ => 0)
      (fun it hit => ⟨(hslot it hit).1, (hslot it hit).2.2⟩)
    have hmap : s.map (fun it => (item_at items input it.img_idx.toNat).1.val)
        = (s.map (fun it => it.img_idx.toNat)).map (fun j => (item_at items input j).1.val) := by
      rw [List.map_map]; rfl
    rw [hmap] at htally
    simp only [knn_predict, hN, hs, htally]
    cases tally_list ((s.map (fun it => it.img_idx.toNat)).map
      (fun j => (item_at items input j).1.val)) (fun _ => 0) <;> rfl

/-- C10, as amended: for a training set given as `(label, image)` items, a query
image, `K` with `1 ≤ K ≤ N` and a metric with finite values (a distance is a
non-negative real), `knn_predict` gives the same result for every permutation
of the items (each image kept with its label), whatever the uninitialised
storage holds, provided that items tied at the distance where the `K` nearest
end, when they cannot all be among the `K` nearest, all carry the same label.
With labels in `0..9` that result is a label in `0..9` with the highest tally
among the slots, every smaller label having a strictly smaller tally. -/
theorem knn_predict_order_independent (garbage garbage2 : Nat → Int)
    (items items2 : List (Byte × Image)) (input : Image) (K : Int)
    (fptr : Image → Image → Dbl) (hperm : items.Perm items2)
    (hK1 : 1 ≤ K) (hKN : K ≤ (items.length : Int))
    (hfin : ∀ x ∈ items, ∃ q, fptr x.2 input = Dbl.fin q ∧ 0 ≤ q)
    (htie : ∀ x ∈ items, ∀ y ∈ items, fptr x.2 input = fptr y.2 input →
      closer fptr input items x < K.toNat → K.toNat < not_farther fptr input items x →
      x.1 = y.1) :
    knn_predict garbage (dataset_of items) input K fptr
      = knn_predict garbage2 (dataset_of items2) input K fptr ∧
    ((∀ x ∈ items, x.1.val < 10) →
      ∃ smallest L,
        knn_scan garbage (dataset_of items) input K fptr items.length = some smallest ∧
        knn_predict garbage (dataset_of items) input K fptr = some L ∧
        knn_predict garbage2 (dataset_of items2) input K fptr = some L ∧ L < 10 ∧
        (∀ l, slot_tally (dataset_of items) smallest l
          ≤ slot_tally (dataset_of items) smallest L) ∧
        (∀ l, l < L → slot_tally (dataset_of items) smallest l
          < slot_tally (dataset_of items) smallest L)) := by
  have hKN2 : K ≤ (items2.length : Int) := by rw [← hperm.length_eq]; exact hKN
  have hfin2 : ∀ x ∈ items2, ∃ q, fptr x.2 input = Dbl.fin q ∧ 0 ≤ q :=
    fun x hx => hfin x (hperm.mem_iff.mpr hx)
  have hcl : closer fptr input items = closer fptr input items2 := by
    funext x
    unfold closer
    exact hperm.countP_eq _
  have hnf : not_farther fptr input items = not_farther fptr input items2 := by
    funext x
    unfold not_farther
    exact hperm.countP_eq _
  have htie2 : ∀ x ∈ items2, ∀ y ∈ items2, fptr x.2 input = fptr y.2 input →
      closer fptr input items2 x < K.toNat → K.toNat < not_farther fptr input items2 x →
      x.1 = y.1 := by
    intro x hx y hy
    rw [← hcl, ← hnf]
    exact htie x (hperm.mem_iff.mpr hx) y (hperm.mem_iff.mpr hy)
  obtain ⟨ls, hcount, hpred⟩ :=
    knn_predict_eq_tally garbage items input K fptr hK1 hKN hfin htie
  obtain ⟨ls2, hcount2, hpred2⟩ :=
    knn_predict_eq_tally garbage2 items2 input K fptr hK1 hKN2 hfin2 htie2
  have hls : ls.Perm ls2 := by
    rw [List.perm_iff_count]
    intro l
    rw [hcount, hcount2, nearest_tally_perm fptr input items items2 hperm]
  have heq : knn_predict garbage (dataset_of items) input K fptr
      = knn_predict garbage2 (dataset_of items2) input K fptr := by
    rw [hpred, hpred2, tally_list_perm ls ls2 hls]
  refine ⟨heq, ?_⟩
  intro hlab
  obtain ⟨s, hs, hlen, hslot, _, _⟩ := scan_indices garbage items input K fptr hK1 hKN hfin
  have hN : (dataset_of items).num_items.toNat = items.length := by simp [dataset_of]
  obtain ⟨L, hL, hL10, hmax, hsmall⟩ := predict_of_slots garbage (dataset_of items) input K fptr s
    (by rw [hN]; exact hs)
    (by
      intro it hit
      obtain ⟨h0, hlt, hl⟩ := hslot it hit
      exact ⟨h0, _, hl, hlab _ (item_at_mem items input _ hlt)⟩)
    (by omega)
  exact ⟨s, L, hs, hL, by rw [← heq]; exact hL, hL10, hmax, hsmall⟩

theorem near_tie_distance (x : Byte × Image) (hx : x ∈ near_tie_items) :
    ∃ q, sq_distance x.2 (pixel_image 2) = Dbl.fin q ∧ 0 ≤ q := by
  simp only [near_tie_items, List.mem_cons, List.mem_singleton, List.not_mem_nil, or_false] at hx
  rcases hx with rfl | rfl | rfl
  · exact ⟨_, rfl, by decide⟩
  · exact ⟨_, rfl, by decide⟩
  · exact ⟨_, rfl, by decide⟩

theorem near_tie_boundary (x : Byte × Image) (hx : x ∈ near_tie_items) :
    ¬ (closer sq_distance (pixel_image 2) near_tie_items x < (2 : Int).toNat ∧
      (2 : Int).toNat < not_farther sq_distance (pixel_image 2) near_tie_items x) := by
  simp only [near_tie_items, List.mem_cons, List.mem_singleton, List.not_mem_nil, or_false] at hx
  rcases hx with rfl | rfl | rfl
  · decide
  · decide
  · decide

/-- Witness of C10 as amended: three items at the squared distances 1, 1 and 49
from the query pixel 2 with labels 7, 3 and 3, and `K = 2`; the two tied items
are both among the two nearest, and the result is the same in the given order
and in the reversed one. -/
theorem knn_predict_order_independent_witness :
    knn_predict (fun _ => 0) (dataset_of near_tie_items) (pixel_image 2) 2 sq_distance
      = knn_predict (fun _ => 5) (dataset_of near_tie_items.reverse) (pixel_image 2) 2
        sq_distance ∧
    ((∀ x ∈ near_tie_items, x.1.val < 10) →
      ∃ smallest L,
        knn_scan (fun _ => 0) (dataset_of near_tie_items) (pixel_image 2) 2 sq_distance
          near_tie_items.length = some smallest ∧
        knn_predict (fun _ => 0) (dataset_of near_tie_items) (pixel_image 2) 2 sq_distance
          = some L ∧
        knn_predict (fun _ => 5) (dataset_of near_tie_items.reverse) (pixel_image 2) 2
          sq_distance = some L ∧ L < 10 ∧
        (∀ l, slot_tally (dataset_of near_tie_items) smallest l
          ≤ slot_tally (dataset_of near_tie_items) smallest L) ∧
        (∀ l, l < L → slot_tally (dataset_of near_tie_items) smallest l
          < slot_tally (dataset_of near_tie_items) smallest L)) :=
  knn_predict_order_independent (fun _ => 0) (fun _ => 5) near_tie_items near_tie_items.reverse
    (pixel_image 2) 2 sq_distance (List.reverse_perm near_tie_items).symm (by decide) (by decide)
    near_tie_distance
    (fun x hx _ _ _ h1 h2 => absurd ⟨h1, h2⟩ (near_tie_boundary x hx))

/-- Counterexample to C10 as stated: two training items at the same distance 1
from the query pixel 2, with labels 7 and 3, and `K = 1`.  Scanned in the order
(7, 3) the first item fills the slot and the second, not strictly closer, does
not replace it, so the result is 7; scanned in the order (3, 7) the result is
3. -/
theorem knn_predict_order_dependent :
    [((3 : Byte), pixel_image 3), ((7 : Byte), pixel_image 1)].Perm tied_items ∧
    knn_predict (fun _ => 0) (dataset_of tied_items) (pixel_image 2) 1 sq_distance = some 7 ∧
    knn_predict (fun _ => 0) (dataset_of [(3, pixel_image 3), (7, pixel_image 1)])
      (pixel_image 2) 1 sq_distance = some 3 :=
  ⟨List.Perm.swap _ _ _, by decide, by decide⟩

end OCR
